import Mathlib

/-!
Shallow embedding of the minefield engine from `src/minefield.rs` of the
kingdom5500/minesweeper repository, together with theorems checking the
natural-language specification against it.

Modelling conventions:
* `usize` becomes `Nat`.
* `Vec<Tile>` becomes `List Tile`; the Rust index expression
  `row * width + column` is kept verbatim.
* Fallible queries (`get_tile`, `get_indices_near`, ...) return
  `Except String α` exactly as the Rust functions return
  `Result<α, &'static str>`.
* Mutating operations take the field and return the updated field paired
  with `Option String` (`none` = `Ok(())`, `some e` = `Err(e)` with the
  mutations performed before the error kept, as a `&mut self` method does).
* The recursive `flood_empty_tiles` is embedded with an explicit recursion
  depth (`fuel`); `none` means the recursion exceeded every finite depth
  budget, which corresponds to nontermination / stack exhaustion of the
  Rust original.  All other codepaths are fuel-independent.
* The two uses of the global RNG are parametrised: `populate` takes the
  list of sampled indices produced by `rand::seq::index::sample`, and
  `clear_first_opening` takes the choice function used by
  `IteratorRandom::choose`.
-/

set_option maxHeartbeats 1600000

namespace Minesweeper

/-- TileState mirrors the enum in `src/tile.rs`. -/
inductive TileState where
  | Hidden
  | Visible
  | Flagged
  deriving DecidableEq

/-- Tile mirrors the struct in `src/tile.rs`. -/
structure Tile where
  state : TileState
  has_mine : Bool
  deriving DecidableEq

/-- MineFieldState mirrors the enum in `src/minefield.rs`. -/
inductive MineFieldState where
  | Failed
  | Cleared
  | InProgress
  deriving DecidableEq

/-- MineField mirrors the struct in `src/minefield.rs`. -/
structure MineField where
  width : Nat
  height : Nat
  mines : Nat
  flags : Nat
  tiles : List Tile
  deriving DecidableEq

/-- The error string used by `get_tile` and `get_tile_mut`. -/
def tileNotInRange : String := "Tile not in range"

/-- The error string used by `populate`. -/
def notEnoughSpace : String := "Not enough space for those mines."

/-- Stands for the panic a Rust `Vec` raises on an out-of-bounds index;
unreachable whenever `tiles.length = width * height`. -/
def indexOutOfBounds : String := "index out of bounds"

namespace MineField

/-- MineField::empty - a grid of hidden, mine-free tiles. -/
def empty (width height : Nat) : MineField :=
  { width := width
    height := height
    mines := 0
    flags := 0
    tiles := List.replicate (width * height) { state := TileState.Hidden, has_mine := false } }

/-- MineField::position_is_valid. -/
def position_is_valid (f : MineField) (row column : Nat) : Bool :=
  decide (row < f.height) && decide (column < f.width)

/-- MineField::get_tile (also the read half of get_tile_mut). -/
def get_tile (f : MineField) (row column : Nat) : Except String Tile :=
  if f.position_is_valid row column then
    match f.tiles[row * f.width + column]? with
    | some t => .ok t
    | none => .error indexOutOfBounds
  else
    .error tileNotInRange

/-- The write half of MineField::get_tile_mut - store a tile at a position. -/
def set_tile (f : MineField) (row column : Nat) (t : Tile) : MineField :=
  { f with tiles := f.tiles.set (row * f.width + column) t }

/-- MineField::has_mine_at. -/
def has_mine_at (f : MineField) (row column : Nat) : Except String Bool :=
  match f.get_tile row column with
  | .ok t => .ok t.has_mine
  | .error e => .error e

/-- MineField::get_tile_state. -/
def get_tile_state (f : MineField) (row column : Nat) : Except String TileState :=
  match f.get_tile row column with
  | .ok t => .ok t.state
  | .error e => .error e

/-- MineField::get_indices_near, with the row/column clipping of the
source reproduced branch by branch. -/
def get_indices_near (f : MineField) (row column : Nat) :
    Except String (List (Nat × Nat)) :=
  match f.get_tile row column with
  | .error e => .error e
  | .ok _ =>
    if f.width = 1 ∧ f.height = 1 then
      .ok []
    else
      let rowBounds : Nat × Nat :=
        if row = 0 then (row, row + 1)
        else if row = f.height - 1 then (row - 1, row)
        else (row - 1, row + 1)
      let colBounds : Nat × Nat :=
        if column = 0 then (column, column + 1)
        else if column = f.width - 1 then (column - 1, column)
        else (column - 1, column + 1)
      .ok ((List.range' rowBounds.1 (rowBounds.2 + 1 - rowBounds.1)).flatMap fun adj_row =>
        (List.range' colBounds.1 (colBounds.2 + 1 - colBounds.1)).filterMap fun adj_column =>
          if adj_row = row ∧ adj_column = column then none
          else some (adj_row, adj_column))

/-- The `collect` of MineField::get_tiles_near: fetch each position's
tile in order, stopping at the first error. -/
def get_tiles_list (f : MineField) : List (Nat × Nat) → Except String (List Tile)
  | [] => .ok []
  | p :: rest =>
    match f.get_tile p.1 p.2 with
    | .error e => .error e
    | .ok t =>
      match get_tiles_list f rest with
      | .error e => .error e
      | .ok ts => .ok (t :: ts)

/-- MineField::get_tiles_near. -/
def get_tiles_near (f : MineField) (row column : Nat) : Except String (List Tile) :=
  match f.get_indices_near row column with
  | .error e => .error e
  | .ok idxs => f.get_tiles_list idxs

/-- MineField::count_mines_near. -/
def count_mines_near (f : MineField) (row column : Nat) : Except String Nat :=
  match f.get_tiles_near row column with
  | .error e => .error e
  | .ok ts => .ok (ts.filter (fun t => t.has_mine)).length

/-- MineField::has_mines_near. -/
def has_mines_near (f : MineField) (row column : Nat) : Except String Bool :=
  match f.get_tiles_near row column with
  | .error e => .error e
  | .ok ts => .ok (ts.any fun t => t.has_mine)

/-- MineField::toggle_flag. -/
def toggle_flag (f : MineField) (row column : Nat) : MineField × Option String :=
  match f.get_tile row column with
  | .error e => (f, some e)
  | .ok tile =>
    match tile.state with
    | TileState.Hidden =>
      let f1 := f.set_tile row column { tile with state := TileState.Flagged }
      ({ f1 with flags := f1.flags + 1 }, none)
    | TileState.Flagged =>
      let f1 := f.set_tile row column { tile with state := TileState.Hidden }
      ({ f1 with flags := f1.flags - 1 }, none)
    | _ => (f, none)

/-- MineField::dig_tile. -/
def dig_tile (f : MineField) (row column : Nat) : MineField × Option String :=
  match f.get_tile row column with
  | .error e => (f, some e)
  | .ok tile =>
    match tile.state with
    | TileState.Hidden => (f.set_tile row column { tile with state := TileState.Visible }, none)
    | _ => (f, none)

/-- The indices (into `tiles`) of the mine-free tiles, in order: the
positions of the references collected into `empty_tiles` by
MineField::populate. -/
def empty_tile_indices (f : MineField) : List Nat :=
  (List.range f.tiles.length).filter fun i =>
    match f.tiles[i]? with
    | some t => !t.has_mine
    | none => false

/-- Set `has_mine` on the tile at index `i` of the tile list. -/
def mark_mine (tiles : List Tile) (i : Nat) : List Tile :=
  match tiles[i]? with
  | some t => tiles.set i { t with has_mine := true }
  | none => tiles

/-- MineField::populate.  `chosen` is the list of distinct indices into
`empty_tiles` produced by `rand::seq::index::sample(rng, len, amount)`;
theorems carry the sample contract (`chosen.length = amount`, no
duplicates, all below `len`) as hypotheses. -/
def populate (f : MineField) (chosen : List Nat) (amount : Nat) :
    MineField × Option String :=
  if f.empty_tile_indices.length < amount then
    (f, some notEnoughSpace)
  else
    ({ f with
        tiles := chosen.foldl
          (fun ts j =>
            match f.empty_tile_indices[j]? with
            | some i => mark_mine ts i
            | none => ts)
          f.tiles
        mines := f.mines + amount }, none)

/-- MineField::iter_positions. -/
def iter_positions (f : MineField) : List (Nat × Nat) :=
  (List.range (f.width * f.height)).map fun index => (index / f.width, index % f.width)

/-- MineField::flood_empty_tiles, embedded with an explicit recursion
depth.  `none` means the depth budget was exhausted; the Rust original
would still be recursing at that depth.  The nested `flood_list` walks
the neighbour list exactly like the `for` loop, stopping at the first
error as the `?` operator does. -/
def flood_list (floodF : MineField → Nat → Nat → Option (MineField × Option String)) :
    MineField → List (Nat × Nat) → Option (MineField × Option String)
  | f, [] => some (f, none)
  | f, p :: rest =>
    match floodF f p.1 p.2 with
    | none => none
    | some (g, some e) => some (g, some e)
    | some (g, none) => flood_list floodF g rest

def flood_empty_tiles : Nat → MineField → Nat → Nat → Option (MineField × Option String)
  | 0, _, _, _ => none
  | fuel + 1, f, row, column =>
    match f.get_tile_state row column with
    | .error e => some (f, some e)
    | .ok s =>
      if s = TileState.Visible then some (f, none)
      else
        match f.dig_tile row column with
        | (f1, some e) => some (f1, some e)
        | (f1, none) =>
          match f1.has_mines_near row column with
          | .error e => some (f1, some e)
          | .ok b =>
            if b then some (f1, none)
            else
              match f1.get_indices_near row column with
              | .error e => some (f1, some e)
              | .ok idxs =>
                flood_list (fun g r c => flood_empty_tiles fuel g r c) f1 idxs

/-- The scanning loop of MineField::do_chord: walks the neighbour list in
order, counting flagged and mined neighbours and collecting the hidden
ones, stopping at the first `get_tile` error. -/
def chord_scan (f : MineField) : List (Nat × Nat) → Except String (Nat × Nat × List (Nat × Nat))
  | [] => .ok (0, 0, [])
  | p :: rest =>
    match f.get_tile p.1 p.2 with
    | .error e => .error e
    | .ok tile =>
      match chord_scan f rest with
      | .error e => .error e
      | .ok (nearby_flags, nearby_mines, hidden_indices) =>
        .ok
          ( (if tile.state = TileState.Flagged then 1 else 0) + nearby_flags
          , (if tile.has_mine then 1 else 0) + nearby_mines
          , if tile.state = TileState.Hidden then p :: hidden_indices else hidden_indices )

/-- MineField::do_chord. -/
def do_chord (fuel : Nat) (f : MineField) (row column : Nat) :
    Option (MineField × Option String) :=
  match f.get_tile row column with
  | .error e => some (f, some e)
  | .ok this_tile =>
    if this_tile.state ≠ TileState.Visible then some (f, none)
    else
      match f.get_indices_near row column with
      | .error e => some (f, some e)
      | .ok idxs =>
        match f.chord_scan idxs with
        | .error e => some (f, some e)
        | .ok (nearby_flags, nearby_mines, hidden_indices) =>
          if nearby_flags = nearby_mines then
            flood_list (fun g r c => flood_empty_tiles fuel g r c) f hidden_indices
          else
            some (f, none)

/-- The scanning loop of MineField::clear_first_opening: both `unwrap`
calls of the source surface as the error branch. -/
def collect_targets (f : MineField) : List (Nat × Nat) → Except String (List (Nat × Nat))
  | [] => .ok []
  | p :: rest =>
    match f.has_mines_near p.1 p.2 with
    | .error e => .error e
    | .ok near_mines =>
      match f.has_mine_at p.1 p.2 with
      | .error e => .error e
      | .ok is_mine =>
        match f.collect_targets rest with
        | .error e => .error e
        | .ok l => .ok (if !is_mine && !near_mines then p :: l else l)

/-- MineField::clear_first_opening.  `pick` stands for
`IteratorRandom::choose`; a result of `some (.error e)` corresponds to
one of the `unwrap` calls of the source crashing, and `none` to the
flood recursion exceeding the depth budget. -/
def clear_first_opening (fuel : Nat) (f : MineField)
    (pick : List (Nat × Nat) → Option (Nat × Nat)) :
    Option (Except String (MineField × Option (Nat × Nat))) :=
  match f.collect_targets f.iter_positions with
  | .error e => some (.error e)
  | .ok target_indices =>
    match pick target_indices with
    | some p =>
      match flood_empty_tiles fuel f p.1 p.2 with
      | none => none
      | some (_, some e) => some (.error e)
      | some (g, none) => some (.ok (g, some p))
    | none => some (.ok (f, none))

/-- The scanning loop of MineField::get_state. -/
def get_state_go : List Tile → Bool → MineFieldState
  | [], is_cleared => if is_cleared then MineFieldState.Cleared else MineFieldState.InProgress
  | t :: ts, is_cleared =>
    match t.state with
    | TileState.Visible =>
      if t.has_mine then MineFieldState.Failed else get_state_go ts is_cleared
    | TileState.Hidden =>
      if !t.has_mine then get_state_go ts false else get_state_go ts is_cleared
    | TileState.Flagged => get_state_go ts is_cleared

/-- MineField::get_state. -/
def get_state (f : MineField) : MineFieldState :=
  get_state_go f.tiles true

/-- The structural invariant of the data model: the tile list covers the
grid, `tiles.len() == width * height`. -/
def tiles_sized (f : MineField) : Prop :=
  f.tiles.length = f.width * f.height

/-- The cached-counter invariant of the spec: `flags` equals the number
of tiles whose state is Flagged. -/
def flags_invariant (f : MineField) : Prop :=
  f.flags = f.tiles.countP fun t => decide (t.state = TileState.Flagged)

/-- How a single tile may change under dig-only operations: the mine bit
is kept and the state either stays or goes from Hidden to Visible. -/
def TileStep (t t' : Tile) : Prop :=
  t'.has_mine = t.has_mine ∧
    (t'.state = t.state ∨ (t.state = TileState.Hidden ∧ t'.state = TileState.Visible))

/-- How a whole field may change under dig-only operations
(`dig_tile`, `flood_empty_tiles` and the flooding part of `do_chord`):
every scalar component is kept and each tile takes a `TileStep`. -/
def Evolve (f g : MineField) : Prop :=
  g.width = f.width ∧ g.height = f.height ∧ g.mines = f.mines ∧ g.flags = f.flags ∧
    g.tiles.length = f.tiles.length ∧
    ∀ (i : Nat) (t : Tile), f.tiles[i]? = some t →
      ∃ t', g.tiles[i]? = some t' ∧ TileStep t t'

/-- Positions the flood recursion starting at `start` can spread to:
chains of neighbour steps whose interior positions are non-Visible
(in the initial field) and have no adjacent mines.  This is the region
the recursion actually walks: it expands from a tile exactly when the
tile was not already Visible and `has_mines_near` is false, and it does
not expand past a tile with adjacent mines. -/
inductive ReachVia (f : MineField) (start : Nat × Nat) : Nat × Nat → Prop where
  | base : ReachVia f start start
  | step (p q : Nat × Nat) (hp : ReachVia f start p) (s : TileState)
      (hs : f.get_tile_state p.1 p.2 = .ok s) (hsv : s ≠ TileState.Visible)
      (hz : f.has_mines_near p.1 p.2 = .ok false)
      (l : List (Nat × Nat)) (hl : f.get_indices_near p.1 p.2 = .ok l) (hq : q ∈ l) :
      ReachVia f start q

/-- Chains of neighbour steps whose interior positions are Hidden (in
the initial field) and have no adjacent mines: the sub-region of
`ReachVia` along which the flood is guaranteed to reveal. -/
inductive ReachHid (f : MineField) (start : Nat × Nat) : Nat × Nat → Prop where
  | base : ReachHid f start start
  | step (p q : Nat × Nat) (hp : ReachHid f start p)
      (hs : f.get_tile_state p.1 p.2 = .ok TileState.Hidden)
      (hz : f.has_mines_near p.1 p.2 = .ok false)
      (l : List (Nat × Nat)) (hl : f.get_indices_near p.1 p.2 = .ok l) (hq : q ∈ l) :
      ReachHid f start q

/-- Visibility absorption between two fields: every tile that is
Visible in the first is still present and Visible in the second. -/
def visible_preserved (f g : MineField) : Prop :=
  ∀ (i : Nat) (t : Tile), f.tiles[i]? = some t → t.state = TileState.Visible →
    ∃ t', g.tiles[i]? = some t' ∧ t'.state = TileState.Visible

/-- Saturation of a flood run from `f` to `g`: any tile that went from
Hidden to Visible and has no adjacent mines had every neighbour driven
out of the Hidden state.  This is the key invariant behind the
completeness half of the flood-fill claim. -/
def new_sat (f g : MineField) : Prop :=
  ∀ (x1 x2 : Nat), f.get_tile_state x1 x2 = .ok TileState.Hidden →
    g.get_tile_state x1 x2 = .ok TileState.Visible →
    f.has_mines_near x1 x2 = .ok false →
    ∀ l, f.get_indices_near x1 x2 = .ok l →
    ∀ p ∈ l, ∃ t', g.get_tile p.1 p.2 = .ok t' ∧ t'.state ≠ TileState.Hidden

/-- Count the neighbours (given by the position list) whose tile
satisfies a predicate; positions whose lookup fails count zero. -/
def count_matching (f : MineField) (l : List (Nat × Nat)) (p : Tile → Bool) : Nat :=
  l.countP fun q =>
    match f.get_tile q.1 q.2 with
    | .ok t => p t
    | .error _ => false

/-- MineField::game_over, with the `bad_flag` condition of the source
kept verbatim. -/
def game_over (f : MineField) : MineField :=
  { f with
    tiles := f.tiles.map fun tile =>
      let bad_flag : Bool := decide (tile.state = TileState.Flagged) && tile.has_mine
      if bad_flag || decide (tile.state = TileState.Hidden) then
        { tile with state := TileState.Visible }
      else
        tile }

end MineField

open MineField

/-- A 2x2 field, one (correctly) flagged mine, one misflag, used on the
game_over claims: `game_over` reveals the correctly flagged mine and
keeps the misflag. -/
def fieldFlagsBoth : MineField :=
  { width := 2, height := 2, mines := 1, flags := 2
    tiles :=
      [ { state := TileState.Flagged, has_mine := true }
      , { state := TileState.Flagged, has_mine := false }
      , { state := TileState.Hidden, has_mine := false }
      , { state := TileState.Visible, has_mine := false } ] }

/-- A 2x2 mine-free field with one correctly maintained flag counter,
used on the flags-invariant claim. -/
def fieldOneFlaggedMine : MineField :=
  { width := 2, height := 2, mines := 1, flags := 1
    tiles :=
      [ { state := TileState.Flagged, has_mine := true }
      , { state := TileState.Hidden, has_mine := false }
      , { state := TileState.Hidden, has_mine := false }
      , { state := TileState.Hidden, has_mine := false } ] }

/-- A 2x2 mine-free field with a single flagged tile: flooding from
(0,0) terminates but leaves the reachable flagged tile covered. -/
def fieldFloodFlag : MineField :=
  { width := 2, height := 2, mines := 0, flags := 1
    tiles :=
      [ { state := TileState.Hidden, has_mine := false }
      , { state := TileState.Flagged, has_mine := false }
      , { state := TileState.Hidden, has_mine := false }
      , { state := TileState.Hidden, has_mine := false } ] }

/-- A 2x2 mine-free field with two adjacent flagged tiles: flooding from
(0,0) recurses forever between the two flagged tiles. -/
def fieldFloodLoop : MineField :=
  { width := 2, height := 2, mines := 0, flags := 2
    tiles :=
      [ { state := TileState.Hidden, has_mine := false }
      , { state := TileState.Flagged, has_mine := false }
      , { state := TileState.Flagged, has_mine := false }
      , { state := TileState.Hidden, has_mine := false } ] }

/-- The intermediate field of the divergence argument: `fieldFloodLoop`
after (0,0) has been dug. -/
def fieldFloodLoopDug : MineField :=
  { width := 2, height := 2, mines := 0, flags := 2
    tiles :=
      [ { state := TileState.Visible, has_mine := false }
      , { state := TileState.Flagged, has_mine := false }
      , { state := TileState.Flagged, has_mine := false }
      , { state := TileState.Hidden, has_mine := false } ] }

/-- A single-row 1x2 field (width 2, height 1) whose first tile is
Visible: the degenerate-grid case on which chording fails. -/
def fieldChordNarrow : MineField :=
  { width := 2, height := 1, mines := 0, flags := 0
    tiles :=
      [ { state := TileState.Visible, has_mine := false }
      , { state := TileState.Hidden, has_mine := false } ] }

/-- A 2x2 mine-free field whose top-left tile is Visible, used as the
concrete witness input for the chord claim. -/
def fieldChordOpen : MineField :=
  { width := 2, height := 2, mines := 0, flags := 0
    tiles :=
      [ { state := TileState.Visible, has_mine := false }
      , { state := TileState.Hidden, has_mine := false }
      , { state := TileState.Hidden, has_mine := false }
      , { state := TileState.Hidden, has_mine := false } ] }

namespace MineField

theorem position_is_valid_iff {f : MineField} {row column : Nat} :
    f.position_is_valid row column = true ↔ row < f.height ∧ column < f.width := by
  simp [position_is_valid]

theorem index_lt {w h row column : Nat} (hr : row < h) (hc : column < w) :
    row * w + column < w * h := by
  have h1 : row * w + w ≤ h * w := by
    have : (row + 1) * w ≤ h * w := Nat.mul_le_mul_right w hr
    simpa [Nat.succ_mul] using this
  have h2 : h * w = w * h := Nat.mul_comm h w
  omega

theorem get_tile_ok_iff {f : MineField} {row column : Nat} {t : Tile} :
    f.get_tile row column = .ok t ↔
      f.position_is_valid row column = true ∧
        f.tiles[row * f.width + column]? = some t := by
  unfold get_tile
  cases hv : f.position_is_valid row column
  · simp
  · cases hg : f.tiles[row * f.width + column]? <;> simp [hg]

theorem get_tile_ok_of_valid {f : MineField} {row column : Nat}
    (hs : f.tiles_sized) (hr : row < f.height) (hc : column < f.width) :
    ∃ t, f.tiles[row * f.width + column]? = some t ∧ f.get_tile row column = .ok t := by
  have hlt : row * f.width + column < f.tiles.length := by
    rw [hs]; exact index_lt hr hc
  obtain ⟨t, hsome⟩ : ∃ t, f.tiles[row * f.width + column]? = some t :=
    ⟨_, List.getElem?_eq_some_iff.mpr ⟨hlt, rfl⟩⟩
  exact ⟨t, hsome, get_tile_ok_iff.mpr ⟨position_is_valid_iff.mpr ⟨hr, hc⟩, hsome⟩⟩

theorem get_tile_invalid {f : MineField} {row column : Nat}
    (h : f.position_is_valid row column = false) :
    f.get_tile row column = .error tileNotInRange := by
  unfold get_tile
  simp [h]

theorem evolve_refl (f : MineField) : Evolve f f :=
  ⟨rfl, rfl, rfl, rfl, rfl, fun _ t h => ⟨t, h, rfl, Or.inl rfl⟩⟩

theorem evolve_trans {f g h : MineField} (h1 : Evolve f g) (h2 : Evolve g h) : Evolve f h := by
  obtain ⟨w1, hh1, m1, fl1, l1, p1⟩ := h1
  obtain ⟨w2, hh2, m2, fl2, l2, p2⟩ := h2
  refine ⟨w2.trans w1, hh2.trans hh1, m2.trans m1, fl2.trans fl1, l2.trans l1, ?_⟩
  intro i t ht
  obtain ⟨t1, hg, hm1, hs1⟩ := p1 i t ht
  obtain ⟨t2, hhh, hm2, hs2⟩ := p2 i t1 hg
  refine ⟨t2, hhh, hm2.trans hm1, ?_⟩
  rcases hs1 with h1 | ⟨ha, hb⟩
  · rcases hs2 with h2 | ⟨hc, hd⟩
    · exact Or.inl (h2.trans h1)
    · exact Or.inr ⟨h1 ▸ hc, hd⟩
  · rcases hs2 with h2 | ⟨hc, hd⟩
    · exact Or.inr ⟨ha, h2.trans hb⟩
    · rw [hb] at hc; cases hc


theorem set_tile_evolve_dig {f : MineField} {row column : Nat} {tile : Tile}
    (hsome : f.tiles[row * f.width + column]? = some tile)
    (hstate : tile.state = TileState.Hidden) :
    Evolve f (f.set_tile row column { tile with state := TileState.Visible }) := by
  have hlt : row * f.width + column < f.tiles.length :=
    (List.getElem?_eq_some_iff.mp hsome).1
  unfold Evolve set_tile
  refine ⟨rfl, rfl, rfl, rfl, List.length_set .., ?_⟩
  intro i t hti
  by_cases hi : row * f.width + column = i
  · subst hi
    rw [hsome] at hti
    cases hti
    exact ⟨{ tile with state := TileState.Visible },
      List.getElem?_set_eq_of_lt _ hlt, rfl, Or.inr ⟨hstate, rfl⟩⟩
  · exact ⟨t, by rw [List.getElem?_set_ne hi]; exact hti, rfl, Or.inl rfl⟩

theorem dig_tile_fst_evolve (f : MineField) (row column : Nat) :
    Evolve f (f.dig_tile row column).1 := by
  unfold dig_tile
  cases hget : f.get_tile row column with
  | error e => exact evolve_refl f
  | ok tile =>
    dsimp only
    cases hstate : tile.state with
    | Hidden =>
      obtain ⟨hv, hsome⟩ := get_tile_ok_iff.mp hget
      exact set_tile_evolve_dig hsome hstate
    | Visible => exact evolve_refl f
    | Flagged => exact evolve_refl f

theorem Evolve.tiles_sized_of {f g : MineField} (h : Evolve f g) (hs : f.tiles_sized) :
    g.tiles_sized := by
  unfold tiles_sized at hs ⊢
  rw [h.2.2.2.2.1, h.1, h.2.1, hs]

theorem Evolve.valid_eq {f g : MineField} (h : Evolve f g) (row column : Nat) :
    g.position_is_valid row column = f.position_is_valid row column := by
  unfold position_is_valid
  rw [h.1, h.2.1]

theorem Evolve.get_tile_error_iff {f g : MineField} (h : Evolve f g) {row column : Nat}
    {e : String} : g.get_tile row column = .error e ↔ f.get_tile row column = .error e := by
  unfold get_tile
  rw [h.valid_eq, h.1]
  cases hv : f.position_is_valid row column
  · simp
  · simp only [if_true]
    cases hf : f.tiles[row * f.width + column]? with
    | none =>
      have hg : g.tiles[row * f.width + column]? = none := by
        apply List.getElem?_eq_none
        rw [h.2.2.2.2.1]
        by_contra hcon
        push_neg at hcon
        rw [(f.tiles.getElem?_eq_some_iff).mpr ⟨hcon, rfl⟩] at hf
        cases hf
      rw [hg]
    | some t =>
      obtain ⟨t', hg, _⟩ := h.2.2.2.2.2 _ _ hf
      rw [hg]
      simp

theorem Evolve.get_tile_ok {f g : MineField} (h : Evolve f g) {row column : Nat} {t : Tile}
    (hf : f.get_tile row column = .ok t) :
    ∃ t', g.get_tile row column = .ok t' ∧ TileStep t t' := by
  obtain ⟨hv, hsome⟩ := get_tile_ok_iff.mp hf
  obtain ⟨t', hgsome, hstep⟩ := h.2.2.2.2.2 _ _ hsome
  refine ⟨t', get_tile_ok_iff.mpr ⟨?_, ?_⟩, hstep⟩
  · rw [h.valid_eq]; exact hv
  · rw [h.1]; exact hgsome

theorem Evolve.get_indices_near_eq {f g : MineField} (h : Evolve f g) (row column : Nat) :
    g.get_indices_near row column = f.get_indices_near row column := by
  unfold get_indices_near
  cases hf : f.get_tile row column with
  | error e => rw [h.get_tile_error_iff.mpr hf]
  | ok t =>
    obtain ⟨t', hg, _⟩ := h.get_tile_ok hf
    rw [hg]
    dsimp only
    rw [h.1, h.2.1]

theorem Evolve.tiles_list_mines {f g : MineField} (h : Evolve f g) (l : List (Nat × Nat)) :
    (g.get_tiles_list l).map (fun ts => ts.map Tile.has_mine)
      = (f.get_tiles_list l).map (fun ts => ts.map Tile.has_mine) := by
  induction l with
  | nil => rfl
  | cons p rest ih =>
    unfold get_tiles_list
    cases hf : f.get_tile p.1 p.2 with
    | error e => rw [h.get_tile_error_iff.mpr hf]
    | ok t =>
      obtain ⟨t', hg, hm, _⟩ := h.get_tile_ok hf
      rw [hg]
      cases hrest : f.get_tiles_list rest with
      | error e =>
        rw [hrest] at ih
        cases hgr : g.get_tiles_list rest with
        | error e' =>
          rw [hgr] at ih
          simp only [Except.map] at ih
          cases ih
          rfl
        | ok ts' => rw [hgr] at ih; simp [Except.map] at ih
      | ok ts =>
        rw [hrest] at ih
        cases hgr : g.get_tiles_list rest with
        | error e' => rw [hgr] at ih; simp [Except.map] at ih
        | ok ts' =>
          rw [hgr] at ih
          simp only [Except.map, Except.ok.injEq] at ih ⊢
          simp [ih, hm]

theorem map_has_mine_any {a b : List Tile}
    (h : a.map Tile.has_mine = b.map Tile.has_mine) :
    (a.any fun t => t.has_mine) = b.any fun t => t.has_mine := by
  induction a generalizing b with
  | nil =>
    cases b with
    | nil => rfl
    | cons x xs => simp at h
  | cons x xs ih =>
    cases b with
    | nil => simp at h
    | cons y ys =>
      simp only [List.map_cons, List.cons.injEq] at h
      simp [h.1, ih h.2]

theorem Evolve.has_mines_near_eq {f g : MineField} (h : Evolve f g) (row column : Nat) :
    g.has_mines_near row column = f.has_mines_near row column := by
  unfold has_mines_near get_tiles_near
  rw [h.get_indices_near_eq]
  cases hi : f.get_indices_near row column with
  | error e => rfl
  | ok idxs =>
    dsimp only
    have hm := h.tiles_list_mines idxs
    cases hfl : f.get_tiles_list idxs with
    | error e =>
      rw [hfl] at hm
      cases hgl : g.get_tiles_list idxs with
      | error e' =>
        rw [hgl] at hm
        simp only [Except.map] at hm
        cases hm
        rfl
      | ok ts' => rw [hgl] at hm; simp [Except.map] at hm
    | ok ts =>
      rw [hfl] at hm
      cases hgl : g.get_tiles_list idxs with
      | error e' => rw [hgl] at hm; simp [Except.map] at hm
      | ok ts' =>
        rw [hgl] at hm
        simp only [Except.map, Except.ok.injEq] at hm
        simp [map_has_mine_any hm]

theorem Evolve.get_tile_state_visible {f g : MineField} (h : Evolve f g) {row column : Nat}
    {s : TileState} (hf : f.get_tile_state row column = .ok s) (hsv : s ≠ TileState.Hidden) :
    g.get_tile_state row column = .ok s := by
  unfold get_tile_state at hf ⊢
  cases hget : f.get_tile row column with
  | error e => rw [hget] at hf; cases hf
  | ok t =>
    rw [hget] at hf
    cases hf
    obtain ⟨t', hg, hm, hstep⟩ := h.get_tile_ok hget
    rw [hg]
    dsimp only
    rcases hstep with hsame | ⟨hhid, _⟩
    · rw [hsame]
    · exact absurd hhid hsv

theorem get_tile_state_ok_iff {f : MineField} {row column : Nat} {s : TileState} :
    f.get_tile_state row column = .ok s ↔
      ∃ t, f.get_tile row column = .ok t ∧ t.state = s := by
  unfold get_tile_state
  cases hget : f.get_tile row column with
  | error e => simp
  | ok t => simp [eq_comm]

theorem dig_tile_of_hidden {f : MineField} {row column : Nat} {t : Tile}
    (hget : f.get_tile row column = .ok t) (ht : t.state = TileState.Hidden) :
    f.dig_tile row column = (f.set_tile row column { t with state := TileState.Visible }, none) := by
  obtain ⟨st, m⟩ := t
  dsimp only at ht
  subst ht
  unfold dig_tile
  rw [hget]

theorem dig_tile_of_not_hidden {f : MineField} {row column : Nat} {t : Tile}
    (hget : f.get_tile row column = .ok t) (ht : t.state ≠ TileState.Hidden) :
    f.dig_tile row column = (f, none) := by
  obtain ⟨st, m⟩ := t
  dsimp only at ht
  unfold dig_tile
  rw [hget]
  cases st with
  | Hidden => exact absurd rfl ht
  | Visible => rfl
  | Flagged => rfl

theorem get_tile_set_self {f : MineField} {row column : Nat} {u : Tile}
    (hv : f.position_is_valid row column = true)
    (hlt : row * f.width + column < f.tiles.length) :
    (f.set_tile row column u).get_tile row column = .ok u := by
  apply get_tile_ok_iff.mpr
  exact ⟨hv, List.getElem?_set_eq_of_lt _ hlt⟩

theorem flood_list_evolve_of
    (floodF : MineField → Nat → Nat → Option (MineField × Option String))
    (hF : ∀ f r c g e, floodF f r c = some (g, e) → Evolve f g) :
    ∀ (l : List (Nat × Nat)) (f g : MineField) (e : Option String),
      flood_list floodF f l = some (g, e) → Evolve f g := by
  intro l
  induction l with
  | nil =>
    intro f g e h
    simp only [flood_list, Option.some.injEq, Prod.mk.injEq] at h
    rw [← h.1]
    exact evolve_refl f
  | cons p rest ihl =>
    intro f g e h
    simp only [flood_list] at h
    cases hcall : floodF f p.1 p.2 with
    | none => rw [hcall] at h; cases h
    | some ge =>
      obtain ⟨g1, e1⟩ := ge
      rw [hcall] at h
      cases e1 with
      | none =>
        dsimp only at h
        exact evolve_trans (hF f p.1 p.2 g1 none hcall) (ihl g1 g e h)
      | some e' =>
        simp only [Option.some.injEq, Prod.mk.injEq] at h
        rw [← h.1]
        exact hF f p.1 p.2 g1 (some e') hcall

theorem flood_evolve : ∀ (fuel : Nat) (f : MineField) (row column : Nat)
    (g : MineField) (e : Option String),
    flood_empty_tiles fuel f row column = some (g, e) → Evolve f g := by
  intro fuel
  induction fuel with
  | zero => intro f row column g e h; simp [flood_empty_tiles] at h
  | succ n ih =>
    intro f row column g e h
    rw [flood_empty_tiles] at h
    cases hs : f.get_tile_state row column with
    | error e0 =>
      rw [hs] at h
      simp only [Option.some.injEq, Prod.mk.injEq] at h
      rw [← h.1]
      exact evolve_refl f
    | ok s =>
      rw [hs] at h
      dsimp only at h
      by_cases hsv : s = TileState.Visible
      · rw [if_pos hsv] at h
        simp only [Option.some.injEq, Prod.mk.injEq] at h
        rw [← h.1]
        exact evolve_refl f
      · rw [if_neg hsv] at h
        rcases hdig : f.dig_tile row column with ⟨f1, e1⟩
        rw [hdig] at h
        have hev1 : Evolve f f1 := by
          have hd := dig_tile_fst_evolve f row column
          rw [hdig] at hd
          exact hd
        cases e1 with
        | some e' =>
          simp only [Option.some.injEq, Prod.mk.injEq] at h
          rw [← h.1]
          exact hev1
        | none =>
          dsimp only at h
          cases hm : f1.has_mines_near row column with
          | error e0 =>
            rw [hm] at h
            simp only [Option.some.injEq, Prod.mk.injEq] at h
            rw [← h.1]
            exact hev1
          | ok b =>
            rw [hm] at h
            dsimp only at h
            cases b with
            | true =>
              simp only [if_true, Option.some.injEq, Prod.mk.injEq] at h
              rw [← h.1]
              exact hev1
            | false =>
              simp only [if_false, Bool.false_eq_true] at h
              cases hidx : f1.get_indices_near row column with
              | error e0 =>
                rw [hidx] at h
                simp only [Option.some.injEq, Prod.mk.injEq] at h
                rw [← h.1]
                exact hev1
              | ok idxs =>
                rw [hidx] at h
                dsimp only at h
                exact evolve_trans hev1
                  (flood_list_evolve_of _ (fun f r c g e => ih f r c g e) idxs f1 g e h)

theorem flood_list_evolve {n : Nat} {l : List (Nat × Nat)} {f g : MineField}
    {e : Option String}
    (h : flood_list (fun g r c => flood_empty_tiles n g r c) f l = some (g, e)) :
    Evolve f g :=
  flood_list_evolve_of _ (fun f r c g e => flood_evolve n f r c g e) l f g e h

theorem flood_result_state {fuel : Nat} {f : MineField} {row column : Nat} {g : MineField}
    {e : Option String} {s : TileState}
    (h : flood_empty_tiles fuel f row column = some (g, e))
    (hs : f.get_tile_state row column = .ok s) :
    g.get_tile_state row column =
      .ok (if s = TileState.Flagged then TileState.Flagged else TileState.Visible) := by
  cases fuel with
  | zero => simp [flood_empty_tiles] at h
  | succ n =>
    obtain ⟨t, hget, ht⟩ := get_tile_state_ok_iff.mp hs
    rw [flood_empty_tiles, hs] at h
    dsimp only at h
    by_cases hsv : s = TileState.Visible
    · rw [if_pos hsv] at h
      simp only [Option.some.injEq, Prod.mk.injEq] at h
      subst hsv
      rw [← h.1]
      simpa using hs
    · rw [if_neg hsv] at h
      by_cases hhid : s = TileState.Hidden
      · subst hhid
        rw [dig_tile_of_hidden hget ht] at h
        dsimp only at h
        have hvalid : f.position_is_valid row column = true := (get_tile_ok_iff.mp hget).1
        have hlt : row * f.width + column < f.tiles.length :=
          (List.getElem?_eq_some_iff.mp (get_tile_ok_iff.mp hget).2).1
        have hf1state :
            (f.set_tile row column { t with state := TileState.Visible }).get_tile_state
              row column = .ok TileState.Visible :=
          get_tile_state_ok_iff.mpr ⟨_, get_tile_set_self hvalid hlt, rfl⟩
        have hev : Evolve (f.set_tile row column { t with state := TileState.Visible }) g := by
          cases hm : (f.set_tile row column
              { t with state := TileState.Visible }).has_mines_near row column with
          | error e0 =>
            rw [hm] at h
            simp only [Option.some.injEq, Prod.mk.injEq] at h
            rw [← h.1]
            exact evolve_refl _
          | ok b =>
            rw [hm] at h
            dsimp only at h
            cases b with
            | true =>
              simp only [if_true, Option.some.injEq, Prod.mk.injEq] at h
              rw [← h.1]
              exact evolve_refl _
            | false =>
              simp only [if_false, Bool.false_eq_true] at h
              cases hidx : (f.set_tile row column
                  { t with state := TileState.Visible }).get_indices_near row column with
              | error e0 =>
                rw [hidx] at h
                simp only [Option.some.injEq, Prod.mk.injEq] at h
                rw [← h.1]
                exact evolve_refl _
              | ok idxs =>
                rw [hidx] at h
                dsimp only at h
                exact flood_list_evolve h
        have := hev.get_tile_state_visible hf1state (by decide)
        simpa using this
      · have hflag : s = TileState.Flagged := by
          cases s
          · exact absurd rfl hhid
          · exact absurd rfl hsv
          · rfl
        subst hflag
        have hev : Evolve f g :=
          flood_evolve (n + 1) f row column g e (by rw [flood_empty_tiles, hs]; exact h)
        have := hev.get_tile_state_visible hs (by decide)
        simpa using this

theorem get_indices_near_char {f : MineField} (hs : f.tiles_sized)
    (hw : 2 ≤ f.width) (hh : 2 ≤ f.height) {row column : Nat}
    (hr : row < f.height) (hc : column < f.width) :
    ∃ l, f.get_indices_near row column = .ok l ∧
      ∀ p : Nat × Nat, p ∈ l ↔
        (p.1 ≤ row + 1 ∧ row ≤ p.1 + 1 ∧ p.2 ≤ column + 1 ∧ column ≤ p.2 + 1 ∧
          ¬(p.1 = row ∧ p.2 = column) ∧ p.1 < f.height ∧ p.2 < f.width) := by
  obtain ⟨t, _, hok⟩ := get_tile_ok_of_valid hs hr hc
  unfold get_indices_near
  rw [hok]
  dsimp only
  rw [if_neg (by omega : ¬(f.width = 1 ∧ f.height = 1))]
  refine ⟨_, rfl, ?_⟩
  rintro ⟨a, b⟩
  simp only [List.mem_flatMap, List.mem_range'_1, List.mem_filterMap,
    Option.ite_none_left_eq_some, Option.some.injEq, Prod.mk.injEq]
  constructor
  · rintro ⟨x, hx, y, hy, hne, rfl, rfl⟩
    refine ⟨?_, ?_, ?_, ?_, ?_, ?_, ?_⟩ <;>
      [skip; skip; skip; skip; exact hne; skip; skip] <;>
      split_ifs at hx hy <;> omega
  · rintro ⟨h1, h2, h3, h4, h5, h6, h7⟩
    refine ⟨a, ?_, b, ?_, h5, rfl, rfl⟩ <;> split_ifs <;> omega

theorem get_tiles_list_ok {f : MineField} {l : List (Nat × Nat)}
    (hv : ∀ p ∈ l, ∃ t, f.get_tile p.1 p.2 = .ok t) :
    ∃ ts, f.get_tiles_list l = .ok ts := by
  induction l with
  | nil => exact ⟨[], rfl⟩
  | cons p rest ih =>
    obtain ⟨t, ht⟩ := hv p (List.mem_cons_self ..)
    obtain ⟨ts, hts⟩ := ih fun q hq => hv q (List.mem_cons_of_mem _ hq)
    exact ⟨t :: ts, by unfold get_tiles_list; rw [ht, hts]⟩

theorem has_mines_near_ok {f : MineField} (hs : f.tiles_sized)
    (hw : 2 ≤ f.width) (hh : 2 ≤ f.height) {row column : Nat}
    (hr : row < f.height) (hc : column < f.width) :
    ∃ b, f.has_mines_near row column = .ok b := by
  obtain ⟨l, hl, hmem⟩ := get_indices_near_char hs hw hh hr hc
  obtain ⟨ts, hts⟩ : ∃ ts, f.get_tiles_list l = .ok ts := by
    apply get_tiles_list_ok
    intro p hp
    obtain ⟨_, _, _, _, _, hph, hpw⟩ := (hmem p).mp hp
    obtain ⟨t, _, ht⟩ := get_tile_ok_of_valid hs hph hpw
    exact ⟨t, ht⟩
  refine ⟨ts.any fun t => t.has_mine, ?_⟩
  unfold has_mines_near get_tiles_near
  rw [hl]
  dsimp only
  rw [hts]

theorem dig_tile_snd_ok {f : MineField} {row column : Nat} {t : Tile}
    (hget : f.get_tile row column = .ok t) : (f.dig_tile row column).2 = none := by
  obtain ⟨st, m⟩ := t
  unfold dig_tile
  rw [hget]
  cases st <;> rfl

theorem flood_list_no_error_of
    (floodF : MineField → Nat → Nat → Option (MineField × Option String))
    (hEv : ∀ f r c g e, floodF f r c = some (g, e) → Evolve f g)
    (hF : ∀ f r c g e, f.tiles_sized → 2 ≤ f.width → 2 ≤ f.height →
      r < f.height → c < f.width → floodF f r c = some (g, e) → e = none) :
    ∀ (l : List (Nat × Nat)) (f g : MineField) (e : Option String),
      f.tiles_sized → 2 ≤ f.width → 2 ≤ f.height →
      (∀ p ∈ l, p.1 < f.height ∧ p.2 < f.width) →
      flood_list floodF f l = some (g, e) → e = none := by
  intro l
  induction l with
  | nil =>
    intro f g e _ _ _ _ h
    simp only [flood_list, Option.some.injEq, Prod.mk.injEq] at h
    exact h.2.symm
  | cons p rest ihl =>
    intro f g e hsz hw hh hval h
    simp only [flood_list] at h
    cases hcall : floodF f p.1 p.2 with
    | none => rw [hcall] at h; cases h
    | some ge =>
      obtain ⟨g1, e1⟩ := ge
      rw [hcall] at h
      have he1 : e1 = none :=
        hF f p.1 p.2 g1 e1 hsz hw hh (hval p (List.mem_cons_self ..)).1
          (hval p (List.mem_cons_self ..)).2 hcall
      subst he1
      dsimp only at h
      have hev := hEv f p.1 p.2 g1 none hcall
      refine ihl g1 g e (hev.tiles_sized_of hsz) ?_ ?_ ?_ h
      · rw [hev.1]; exact hw
      · rw [hev.2.1]; exact hh
      · intro q hq
        rw [hev.1, hev.2.1]
        exact hval q (List.mem_cons_of_mem _ hq)

theorem flood_no_error : ∀ (fuel : Nat) (f : MineField) (row column : Nat)
    (g : MineField) (e : Option String),
    f.tiles_sized → 2 ≤ f.width → 2 ≤ f.height → row < f.height → column < f.width →
    flood_empty_tiles fuel f row column = some (g, e) → e = none := by
  intro fuel
  induction fuel with
  | zero => intro f row column g e _ _ _ _ _ h; simp [flood_empty_tiles] at h
  | succ n ih =>
    intro f row column g e hsz hw hh hr hc h
    obtain ⟨t, _, hget⟩ := get_tile_ok_of_valid hsz hr hc
    have hst : f.get_tile_state row column = .ok t.state :=
      get_tile_state_ok_iff.mpr ⟨t, hget, rfl⟩
    rw [flood_empty_tiles, hst] at h
    dsimp only at h
    by_cases hsv : t.state = TileState.Visible
    · rw [if_pos hsv] at h
      simp only [Option.some.injEq, Prod.mk.injEq] at h
      exact h.2.symm
    · rw [if_neg hsv] at h
      rcases hdig : f.dig_tile row column with ⟨f1, e1⟩
      rw [hdig] at h
      have he1 : e1 = none := by
        have := dig_tile_snd_ok hget
        rw [hdig] at this
        exact this
      subst he1
      dsimp only at h
      have hev1 : Evolve f f1 := by
        have hd := dig_tile_fst_evolve f row column
        rw [hdig] at hd
        exact hd
      have hsz1 : f1.tiles_sized := hev1.tiles_sized_of hsz
      have hw1 : 2 ≤ f1.width := by rw [hev1.1]; exact hw
      have hh1 : 2 ≤ f1.height := by rw [hev1.2.1]; exact hh
      have hr1 : row < f1.height := by rw [hev1.2.1]; exact hr
      have hc1 : column < f1.width := by rw [hev1.1]; exact hc
      obtain ⟨b, hb⟩ := has_mines_near_ok hsz1 hw1 hh1 hr1 hc1
      rw [hb] at h
      dsimp only at h
      cases b with
      | true =>
        simp only [if_true, Option.some.injEq, Prod.mk.injEq] at h
        exact h.2.symm
      | false =>
        simp only [if_false, Bool.false_eq_true] at h
        obtain ⟨l, hl, hmem⟩ := get_indices_near_char hsz1 hw1 hh1 hr1 hc1
        rw [hl] at h
        dsimp only at h
        refine flood_list_no_error_of _ (fun f r c g e => flood_evolve n f r c g e)
          (fun f r c g e => ih f r c g e) l f1 g e hsz1 hw1 hh1 ?_ h
        intro q hq
        obtain ⟨_, _, _, _, _, hqh, hqw⟩ := (hmem q).mp hq
        exact ⟨hqh, hqw⟩

theorem flood_list_no_error {fuel : Nat} {l : List (Nat × Nat)} {f g : MineField}
    {e : Option String} (hsz : f.tiles_sized) (hw : 2 ≤ f.width) (hh : 2 ≤ f.height)
    (hval : ∀ p ∈ l, p.1 < f.height ∧ p.2 < f.width)
    (h : flood_list (fun g r c => flood_empty_tiles fuel g r c) f l = some (g, e)) :
    e = none :=
  flood_list_no_error_of _ (fun f r c g e => flood_evolve fuel f r c g e)
    (fun f r c g e hs hw hh hr hc => flood_no_error fuel f r c g e hs hw hh hr hc)
    l f g e hsz hw hh hval h

theorem flood_loop_aux : ∀ n : Nat,
    flood_empty_tiles n fieldFloodLoopDug 0 1 = none ∧
    flood_empty_tiles n fieldFloodLoopDug 1 0 = none := by
  have hs1 : fieldFloodLoopDug.get_tile_state 0 1 = .ok TileState.Flagged := rfl
  have hs2 : fieldFloodLoopDug.get_tile_state 1 0 = .ok TileState.Flagged := rfl
  have hs0 : fieldFloodLoopDug.get_tile_state 0 0 = .ok TileState.Visible := rfl
  have hd1 : fieldFloodLoopDug.dig_tile 0 1 = (fieldFloodLoopDug, none) := rfl
  have hd2 : fieldFloodLoopDug.dig_tile 1 0 = (fieldFloodLoopDug, none) := rfl
  have hm1 : fieldFloodLoopDug.has_mines_near 0 1 = .ok false := rfl
  have hm2 : fieldFloodLoopDug.has_mines_near 1 0 = .ok false := rfl
  have hi1 : fieldFloodLoopDug.get_indices_near 0 1 = .ok [(0, 0), (1, 0), (1, 1)] := rfl
  have hi2 : fieldFloodLoopDug.get_indices_near 1 0 = .ok [(0, 0), (0, 1), (1, 1)] := rfl
  intro n
  induction n with
  | zero => exact ⟨rfl, rfl⟩
  | succ m ih =>
    have h5 : ∀ k : Nat, flood_empty_tiles (k + 1) fieldFloodLoopDug 0 0 =
        some (fieldFloodLoopDug, none) := by
      intro k
      rw [flood_empty_tiles, hs0]
      dsimp only
      rw [if_pos rfl]
    constructor
    · rw [flood_empty_tiles, hs1]
      dsimp only
      rw [if_neg (by decide), hd1]
      dsimp only
      rw [hm1]
      dsimp only
      rw [if_neg (by decide), hi1]
      cases m with
      | zero => rfl
      | succ k =>
        simp only [flood_list, h5 k]
        rw [ih.2]
    · rw [flood_empty_tiles, hs2]
      dsimp only
      rw [if_neg (by decide), hd2]
      dsimp only
      rw [hm2]
      dsimp only
      rw [if_neg (by decide), hi2]
      cases m with
      | zero => rfl
      | succ k =>
        simp only [flood_list, h5 k]
        rw [ih.1]

theorem get_state_go_failed : ∀ (ts : List Tile) (b : Bool),
    get_state_go ts b = MineFieldState.Failed ↔
      ∃ t ∈ ts, t.state = TileState.Visible ∧ t.has_mine = true := by
  intro ts
  induction ts with
  | nil => intro b; cases b <;> simp [get_state_go]
  | cons t ts ih =>
    intro b
    obtain ⟨st, m⟩ := t
    cases st <;> cases m <;> simp [get_state_go, ih]

theorem get_state_go_cleared : ∀ (ts : List Tile) (b : Bool),
    get_state_go ts b = MineFieldState.Cleared ↔
      ((∀ t ∈ ts, ¬(t.state = TileState.Visible ∧ t.has_mine = true)) ∧ b = true ∧
        ∀ t ∈ ts, ¬(t.state = TileState.Hidden ∧ t.has_mine = false)) := by
  intro ts
  induction ts with
  | nil => intro b; cases b <;> simp [get_state_go]
  | cons t ts ih =>
    intro b
    obtain ⟨st, m⟩ := t
    cases st <;> cases m <;> simp [get_state_go, ih]

theorem countP_set_congr {α : Type} (p : α → Bool) :
    ∀ (l : List α) (i : Nat) (a b : α), l[i]? = some a → p b = p a →
      (l.set i b).countP p = l.countP p := by
  intro l
  induction l with
  | nil => intro i a b h _; simp at h
  | cons x xs ih =>
    intro i a b h hpb
    cases i with
    | zero =>
      simp only [List.getElem?_cons_zero, Option.some.injEq] at h
      subst h
      simp [List.countP_cons, hpb]
    | succ n =>
      simp only [List.getElem?_cons_succ] at h
      simp [List.countP_cons, ih n a b h hpb]

theorem countP_set_incr {α : Type} (p : α → Bool) :
    ∀ (l : List α) (i : Nat) (a b : α), l[i]? = some a → p a = false → p b = true →
      (l.set i b).countP p = l.countP p + 1 := by
  intro l
  induction l with
  | nil => intro i a b h _ _; simp at h
  | cons x xs ih =>
    intro i a b h hpa hpb
    cases i with
    | zero =>
      simp only [List.getElem?_cons_zero, Option.some.injEq] at h
      subst h
      simp [List.countP_cons, hpa, hpb]
    | succ n =>
      simp only [List.getElem?_cons_succ] at h
      simp only [List.set_cons_succ, List.countP_cons, ih n a b h hpa hpb]
      omega

theorem mem_empty_tile_indices {f : MineField} {i : Nat} :
    i ∈ f.empty_tile_indices ↔ ∃ t, f.tiles[i]? = some t ∧ t.has_mine = false := by
  unfold empty_tile_indices
  rw [List.mem_filter, List.mem_range]
  cases hget : f.tiles[i]? with
  | none =>
    constructor
    · rintro ⟨hlt, hcond⟩
      rw [List.getElem?_eq_some_iff.mpr ⟨hlt, rfl⟩] at hget
      cases hget
    · rintro ⟨t, ht, -⟩
      simp at ht
  | some t =>
    have hlt : i < f.tiles.length := (List.getElem?_eq_some_iff.mp hget).1
    constructor
    · rintro ⟨-, hcond⟩
      exact ⟨t, rfl, by simpa using hcond⟩
    · rintro ⟨t', ht', hmine⟩
      cases ht'
      exact ⟨hlt, by simpa using hmine⟩

theorem empty_tile_indices_nodup (f : MineField) : f.empty_tile_indices.Nodup :=
  List.Nodup.filter _ (List.nodup_range _)

theorem empty_tile_indices_length (f : MineField) :
    f.empty_tile_indices.length = f.tiles.countP fun t => !t.has_mine := by
  suffices h : ∀ (l : List Tile),
      ((List.range l.length).filter fun i =>
        match l[i]? with
        | some t => !t.has_mine
        | none => false).length = l.countP fun t => !t.has_mine from h f.tiles
  intro l
  induction l with
  | nil => rfl
  | cons x xs ih =>
    rw [List.length_cons, List.range_succ_eq_map, List.filter_cons, List.filter_map]
    have hcomp : ((fun i =>
        match (x :: xs)[i]? with
        | some t => !t.has_mine
        | none => false) ∘ Nat.succ) = fun i =>
        match xs[i]? with
        | some t => !t.has_mine
        | none => false := by
      funext i
      simp only [Function.comp_apply, Nat.succ_eq_add_one, List.getElem?_cons_succ]
    rw [hcomp]
    cases hx : x.has_mine <;> simp [List.countP_cons, hx, ih]

theorem fold_mark_spec (emptyIdx : List Nat) (hIdxNd : emptyIdx.Nodup) :
    ∀ (chosen : List Nat) (l : List Tile),
      chosen.Nodup →
      (∀ j ∈ chosen, j < emptyIdx.length) →
      (∀ j ∈ chosen, ∀ (i : Nat), emptyIdx[j]? = some i →
        ∃ t, l[i]? = some t ∧ t.has_mine = false) →
      ((chosen.foldl (fun ts j =>
          match emptyIdx[j]? with
          | some i => mark_mine ts i
          | none => ts) l).length = l.length ∧
        ((chosen.foldl (fun ts j =>
          match emptyIdx[j]? with
          | some i => mark_mine ts i
          | none => ts) l).countP fun t => t.has_mine)
          = (l.countP fun t => t.has_mine) + chosen.length ∧
        ∀ (i : Nat) (t t' : Tile), l[i]? = some t →
          (chosen.foldl (fun ts j =>
            match emptyIdx[j]? with
            | some i => mark_mine ts i
            | none => ts) l)[i]? = some t' →
          t'.state = t.state ∧ (t.has_mine = true → t'.has_mine = true)) := by
  intro chosen
  induction chosen with
  | nil =>
    intro l _ _ _
    refine ⟨rfl, rfl, ?_⟩
    intro i t t' h1 h2
    simp only [List.foldl_nil] at h2
    rw [h1] at h2
    cases h2
    exact ⟨rfl, fun h => h⟩
  | cons j rest ih =>
    intro l hnd hbd hfree
    have hjlt : j < emptyIdx.length := hbd j (List.mem_cons_self ..)
    obtain ⟨i, hji⟩ : ∃ i, emptyIdx[j]? = some i :=
      ⟨_, List.getElem?_eq_some_iff.mpr ⟨hjlt, rfl⟩⟩
    obtain ⟨t0, ht0, ht0free⟩ := hfree j (List.mem_cons_self ..) i hji
    have hilt : i < l.length := (List.getElem?_eq_some_iff.mp ht0).1
    have hmark : mark_mine l i = l.set i { t0 with has_mine := true } := by
      unfold mark_mine
      rw [ht0]
    have hstep : (j :: rest).foldl (fun ts j =>
        match emptyIdx[j]? with
        | some i => mark_mine ts i
        | none => ts) l = rest.foldl (fun ts j =>
        match emptyIdx[j]? with
        | some i => mark_mine ts i
        | none => ts) (l.set i { t0 with has_mine := true }) := by
      rw [List.foldl_cons, hji]
      dsimp only
      rw [hmark]
    have hndr : rest.Nodup := hnd.of_cons
    have hjnr : j ∉ rest := (List.nodup_cons.mp hnd).1
    have hfree1 : ∀ j1 ∈ rest, ∀ (i1 : Nat), emptyIdx[j1]? = some i1 →
        ∃ t, (l.set i { t0 with has_mine := true })[i1]? = some t ∧ t.has_mine = false := by
      intro j1 hj1 i1 hj1i1
      have hne : i ≠ i1 := by
        intro he
        subst he
        have hj : j = j1 := List.getElem?_inj hjlt hIdxNd (hji.trans hj1i1.symm)
        exact hjnr (hj ▸ hj1)
      obtain ⟨t1, ht1, ht1free⟩ := hfree j1 (List.mem_cons_of_mem _ hj1) i1 hj1i1
      exact ⟨t1, by rw [List.getElem?_set_ne hne]; exact ht1, ht1free⟩
    obtain ⟨ihlen, ihcount, ihpt⟩ :=
      ih (l.set i { t0 with has_mine := true }) hndr
        (fun j1 hj1 => hbd j1 (List.mem_cons_of_mem _ hj1)) hfree1
    rw [hstep]
    refine ⟨by rw [ihlen, List.length_set], ?_, ?_⟩
    · rw [ihcount, countP_set_incr (fun t => t.has_mine) l i t0
        { t0 with has_mine := true } ht0 ht0free rfl, List.length_cons]
      omega
    · intro i1 t t' h1 h2
      by_cases hii : i = i1
      · subst hii
        rw [ht0] at h1
        cases h1
        have h1' : (l.set i { t0 with has_mine := true })[i]? =
            some { t0 with has_mine := true } := List.getElem?_set_eq_of_lt _ hilt
        obtain ⟨hst, hmono⟩ := ihpt i _ t' h1' h2
        exact ⟨hst, fun _ => hmono rfl⟩
      · have h1' : (l.set i { t0 with has_mine := true })[i1]? = some t := by
          rw [List.getElem?_set_ne hii]
          exact h1
        exact ihpt i1 t t' h1' h2

theorem countP_set_decr {α : Type} (p : α → Bool) :
    ∀ (l : List α) (i : Nat) (a b : α), l[i]? = some a → p a = true → p b = false →
      (l.set i b).countP p + 1 = l.countP p := by
  intro l
  induction l with
  | nil => intro i a b h _ _; simp at h
  | cons x xs ih =>
    intro i a b h hpa hpb
    cases i with
    | zero =>
      simp only [List.getElem?_cons_zero, Option.some.injEq] at h
      subst h
      simp [List.countP_cons, hpa, hpb]
    | succ n =>
      simp only [List.getElem?_cons_succ] at h
      simp only [List.set_cons_succ, List.countP_cons, ← ih n a b h hpa hpb]
      omega

theorem countP_congr_of_pointwise {α : Type} (q : α → Bool) :
    ∀ (l l' : List α), l'.length = l.length →
      (∀ (i : Nat) (a b : α), l[i]? = some a → l'[i]? = some b → q b = q a) →
      l'.countP q = l.countP q := by
  intro l
  induction l with
  | nil =>
    intro l' hlen _
    cases l' with
    | nil => rfl
    | cons y ys => simp at hlen
  | cons x xs ih =>
    intro l' hlen hpt
    cases l' with
    | nil => simp at hlen
    | cons y ys =>
      rw [List.countP_cons, List.countP_cons,
        ih ys (by simpa using hlen)
          (fun i a b h1 h2 => hpt (i + 1) a b (by simpa using h1) (by simpa using h2)),
        hpt 0 x y (by simp) (by simp)]

theorem tile_step_flag_eq {t t' : Tile} (h : TileStep t t') :
    decide (t'.state = TileState.Flagged) = decide (t.state = TileState.Flagged) := by
  rcases h.2 with hsame | ⟨ha, hb⟩
  · rw [hsame]
  · simp [ha, hb]

theorem Evolve.flags_invariant_of {f g : MineField} (h : Evolve f g)
    (hi : flags_invariant f) : flags_invariant g := by
  unfold flags_invariant at hi ⊢
  rw [h.2.2.2.1, hi]
  exact (countP_congr_of_pointwise (fun t => decide (t.state = TileState.Flagged))
    f.tiles g.tiles h.2.2.2.2.1
    (fun i a b h1 h2 => by
      obtain ⟨b', hb', hstep⟩ := h.2.2.2.2.2 i a h1
      rw [hb'] at h2
      cases h2
      exact tile_step_flag_eq ⟨hstep.1, hstep.2⟩)).symm

theorem do_chord_evolve {fuel : Nat} {f : MineField} {row column : Nat} {g : MineField}
    {e : Option String} (h : do_chord fuel f row column = some (g, e)) : Evolve f g := by
  unfold do_chord at h
  cases hget : f.get_tile row column with
  | error e0 =>
    rw [hget] at h
    simp only [Option.some.injEq, Prod.mk.injEq] at h
    rw [← h.1]
    exact evolve_refl f
  | ok this_tile =>
    rw [hget] at h
    dsimp only at h
    by_cases hv : this_tile.state ≠ TileState.Visible
    · rw [if_pos hv] at h
      simp only [Option.some.injEq, Prod.mk.injEq] at h
      rw [← h.1]
      exact evolve_refl f
    · rw [if_neg hv] at h
      cases hidx : f.get_indices_near row column with
      | error e0 =>
        rw [hidx] at h
        simp only [Option.some.injEq, Prod.mk.injEq] at h
        rw [← h.1]
        exact evolve_refl f
      | ok idxs =>
        rw [hidx] at h
        dsimp only at h
        cases hscan : f.chord_scan idxs with
        | error e0 =>
          rw [hscan] at h
          simp only [Option.some.injEq, Prod.mk.injEq] at h
          rw [← h.1]
          exact evolve_refl f
        | ok res =>
          obtain ⟨nearby_flags, nearby_mines, hidden_indices⟩ := res
          rw [hscan] at h
          dsimp only at h
          by_cases heq : nearby_flags = nearby_mines
          · rw [if_pos heq] at h
            exact flood_list_evolve h
          · rw [if_neg heq] at h
            simp only [Option.some.injEq, Prod.mk.injEq] at h
            rw [← h.1]
            exact evolve_refl f

theorem clear_first_opening_evolve {fuel : Nat} {f : MineField}
    {pick : List (Nat × Nat) → Option (Nat × Nat)} {g : MineField} {p : Option (Nat × Nat)}
    (h : clear_first_opening fuel f pick = some (.ok (g, p))) : Evolve f g := by
  unfold clear_first_opening at h
  cases hc : f.collect_targets f.iter_positions with
  | error e0 => rw [hc] at h; simp at h
  | ok targets =>
    rw [hc] at h
    dsimp only at h
    cases hp : pick targets with
    | none =>
      rw [hp] at h
      simp only [Option.some.injEq, Except.ok.injEq, Prod.mk.injEq] at h
      rw [← h.1]
      exact evolve_refl f
    | some q =>
      rw [hp] at h
      dsimp only at h
      cases hfl : flood_empty_tiles fuel f q.1 q.2 with
      | none => rw [hfl] at h; cases h
      | some ge =>
        obtain ⟨g0, e0⟩ := ge
        rw [hfl] at h
        cases e0 with
        | some e1 => simp at h
        | none =>
          simp only [Option.some.injEq, Except.ok.injEq, Prod.mk.injEq] at h
          rw [← h.1]
          exact flood_evolve fuel f q.1 q.2 g0 none hfl

theorem mark_mine_states (ts : List Tile) (i : Nat) :
    (mark_mine ts i).length = ts.length ∧
    ∀ (k : Nat) (a b : Tile), ts[k]? = some a → (mark_mine ts i)[k]? = some b →
      b.state = a.state := by
  unfold mark_mine
  cases hti : ts[i]? with
  | none =>
    refine ⟨rfl, ?_⟩
    intro k a b h1 h2
    rw [h1] at h2
    cases h2
    rfl
  | some t =>
    refine ⟨List.length_set .., ?_⟩
    intro k a b h1 h2
    by_cases hk : i = k
    · subst hk
      rw [List.getElem?_set_eq_of_lt _ (List.getElem?_eq_some_iff.mp h1).1] at h2
      cases h2
      rw [h1] at hti
      cases hti
      rfl
    · rw [List.getElem?_set_ne hk] at h2
      rw [h1] at h2
      cases h2
      rfl

theorem populate_fold_states (emptyIdx : List Nat) :
    ∀ (chosen : List Nat) (l : List Tile),
      ((chosen.foldl (fun ts j =>
          match emptyIdx[j]? with
          | some i => mark_mine ts i
          | none => ts) l).length = l.length ∧
        ∀ (k : Nat) (a b : Tile), l[k]? = some a →
          (chosen.foldl (fun ts j =>
            match emptyIdx[j]? with
            | some i => mark_mine ts i
            | none => ts) l)[k]? = some b →
          b.state = a.state) := by
  intro chosen
  induction chosen with
  | nil =>
    intro l
    refine ⟨rfl, ?_⟩
    intro k a b h1 h2
    simp only [List.foldl_nil] at h2
    rw [h1] at h2
    cases h2
    rfl
  | cons j rest ih =>
    intro l
    rw [List.foldl_cons]
    cases hj : emptyIdx[j]? with
    | none => exact ih l
    | some i =>
      dsimp only
      obtain ⟨hlen1, hpt1⟩ := mark_mine_states l i
      obtain ⟨hlen2, hpt2⟩ := ih (mark_mine l i)
      refine ⟨hlen2.trans hlen1, ?_⟩
      intro k a b h1 h2
      have hk : k < (mark_mine l i).length := by
        rw [hlen1]
        exact (List.getElem?_eq_some_iff.mp h1).1
      obtain ⟨c, hc⟩ : ∃ c, (mark_mine l i)[k]? = some c :=
        ⟨_, List.getElem?_eq_some_iff.mpr ⟨hk, rfl⟩⟩
      rw [hpt2 k c b hc h2, hpt1 k a c h1 hc]

theorem visible_preserved_refl (f : MineField) : visible_preserved f f :=
  fun _ t h hv => ⟨t, h, hv⟩

theorem Evolve.visible_preserved_of {f g : MineField} (h : Evolve f g) :
    visible_preserved f g := by
  intro i t ht hv
  obtain ⟨t', ht', hm, hstep⟩ := h.2.2.2.2.2 i t ht
  rcases hstep with hsame | ⟨hhid, -⟩
  · exact ⟨t', ht', hsame.trans hv⟩
  · rw [hv] at hhid
    cases hhid

theorem chord_scan_spec : ∀ (l : List (Nat × Nat)) (f : MineField),
    (∀ p ∈ l, ∃ t, f.get_tile p.1 p.2 = .ok t) →
    f.chord_scan l = .ok
      ( count_matching f l (fun t => decide (t.state = TileState.Flagged))
      , count_matching f l (fun t => t.has_mine)
      , l.filter fun q =>
          match f.get_tile q.1 q.2 with
          | .ok t => decide (t.state = TileState.Hidden)
          | .error _ => false ) := by
  intro l
  induction l with
  | nil => intro f _; rfl
  | cons q rest ih =>
    intro f hv
    obtain ⟨t, hq⟩ := hv q (List.mem_cons_self ..)
    unfold chord_scan
    rw [hq, ih f (fun p hp => hv p (List.mem_cons_of_mem _ hp))]
    dsimp only
    unfold count_matching
    rw [List.countP_cons, List.countP_cons, List.filter_cons]
    simp only [hq]
    refine congrArg Except.ok ?_
    refine congrArg₂ Prod.mk ?_ (congrArg₂ Prod.mk ?_ ?_)
    · by_cases hf : t.state = TileState.Flagged <;> (simp [hf]; try omega)
    · by_cases hm : t.has_mine <;> (simp [hm]; try omega)
    · by_cases hh : t.state = TileState.Hidden <;> simp [hh]

theorem flood_list_reveals {fuel : Nat} : ∀ (l : List (Nat × Nat)) (f g : MineField),
    flood_list (fun g r c => flood_empty_tiles fuel g r c) f l = some (g, none) →
    ∀ p ∈ l, ∀ (s : TileState), f.get_tile_state p.1 p.2 = .ok s →
      s ≠ TileState.Flagged →
      g.get_tile_state p.1 p.2 = .ok TileState.Visible := by
  intro l
  induction l with
  | nil => intro f g _ p hp; cases hp
  | cons q rest ih =>
    intro f g h p hp s hs hsf
    simp only [flood_list] at h
    cases hcall : flood_empty_tiles fuel f q.1 q.2 with
    | none => rw [hcall] at h; cases h
    | some ge =>
      obtain ⟨g1, e1⟩ := ge
      rw [hcall] at h
      cases e1 with
      | some e' => simp at h
      | none =>
        dsimp only at h
        have hev1 : Evolve f g1 := flood_evolve fuel f q.1 q.2 g1 none hcall
        rcases List.mem_cons.mp hp with hpq | hpr
        · subst hpq
          have hres := flood_result_state hcall hs
          rw [if_neg hsf] at hres
          have hevr : Evolve g1 g := flood_list_evolve h
          exact hevr.get_tile_state_visible hres (by decide)
        · obtain ⟨t, hgt, hts⟩ := get_tile_state_ok_iff.mp hs
          obtain ⟨t1, hgt1, hstep⟩ := hev1.get_tile_ok hgt
          have hs1 : g1.get_tile_state p.1 p.2 = .ok t1.state :=
            get_tile_state_ok_iff.mpr ⟨t1, hgt1, rfl⟩
          have hs1f : t1.state ≠ TileState.Flagged := by
            rcases hstep.2 with hsame | ⟨-, hvis⟩
            · rw [hsame, hts]; exact hsf
            · rw [hvis]; decide
          exact ih g1 g h p hpr t1.state hs1 hs1f

theorem index_pos_inj {w x1 x2 row column : Nat} (hx2 : x2 < w) (hc : column < w)
    (h : x1 * w + x2 = row * w + column) : x1 = row ∧ x2 = column := by
  rcases Nat.lt_trichotomy x1 row with hlt | heq | hgt
  · have h1 : (x1 + 1) * w ≤ row * w := Nat.mul_le_mul_right w (by omega)
    have h2 : x1 * w + w = (x1 + 1) * w := by ring
    omega
  · subst heq
    omega
  · have h1 : (row + 1) * w ≤ x1 * w := Nat.mul_le_mul_right w (by omega)
    have h2 : row * w + w = (row + 1) * w := by ring
    omega

theorem Evolve.get_tile_ok_rev {f g : MineField} (h : Evolve f g) {row column : Nat}
    {t' : Tile} (hg : g.get_tile row column = .ok t') :
    ∃ t, f.get_tile row column = .ok t ∧ TileStep t t' := by
  obtain ⟨hv, hsome⟩ := get_tile_ok_iff.mp hg
  rw [h.valid_eq] at hv
  rw [h.1] at hsome
  have hlt : row * f.width + column < f.tiles.length := by
    have := (List.getElem?_eq_some_iff.mp hsome).1
    rw [h.2.2.2.2.1] at this
    exact this
  obtain ⟨t, ht⟩ : ∃ t, f.tiles[row * f.width + column]? = some t :=
    ⟨_, List.getElem?_eq_some_iff.mpr ⟨hlt, rfl⟩⟩
  obtain ⟨t'', ht'', hstep⟩ := h.2.2.2.2.2 _ _ ht
  rw [hsome] at ht''
  cases ht''
  exact ⟨t, get_tile_ok_iff.mpr ⟨hv, ht⟩, hstep⟩

theorem Evolve.get_tile_nonhidden {f g : MineField} (h : Evolve f g) {row column : Nat}
    {t : Tile} (hf : f.get_tile row column = .ok t) (ht : t.state ≠ TileState.Hidden) :
    ∃ t', g.get_tile row column = .ok t' ∧ t'.state ≠ TileState.Hidden := by
  obtain ⟨t', ht', hstep⟩ := h.get_tile_ok hf
  rcases hstep.2 with hsame | ⟨hhid, -⟩
  · exact ⟨t', ht', by rw [hsame]; exact ht⟩
  · exact absurd hhid ht

theorem dig_tile_get_other {f : MineField} {row column x1 x2 : Nat}
    (hne : ¬(x1 = row ∧ x2 = column)) (hx : f.position_is_valid x1 x2 = true) :
    (f.dig_tile row column).1.get_tile x1 x2 = f.get_tile x1 x2 := by
  unfold dig_tile
  cases hget : f.get_tile row column with
  | error e => rfl
  | ok tile =>
    dsimp only
    cases htS : tile.state with
    | Visible => rfl
    | Flagged => rfl
    | Hidden =>
      have hvrc := (get_tile_ok_iff.mp hget).1
      have hcw : column < f.width := (position_is_valid_iff.mp hvrc).2
      have hx2w : x2 < f.width := (position_is_valid_iff.mp hx).2
      unfold get_tile set_tile position_is_valid
      dsimp only
      rw [List.getElem?_set_ne
        (fun hidx => hne (index_pos_inj hx2w hcw hidx.symm))]

theorem flood_ok_state_exists {fuel : Nat} {f : MineField} {row column : Nat}
    {g : MineField} (h : flood_empty_tiles fuel f row column = some (g, none)) :
    ∃ s, f.get_tile_state row column = .ok s := by
  cases fuel with
  | zero => simp [flood_empty_tiles] at h
  | succ n =>
    rw [flood_empty_tiles] at h
    cases hs : f.get_tile_state row column with
    | error e =>
      rw [hs] at h
      simp at h
    | ok s => exact ⟨s, rfl⟩

theorem flood_list_all_nonhidden {fuel : Nat} : ∀ (l : List (Nat × Nat)) (f g : MineField),
    flood_list (fun g r c => flood_empty_tiles fuel g r c) f l = some (g, none) →
    ∀ p ∈ l, ∃ t', g.get_tile p.1 p.2 = .ok t' ∧ t'.state ≠ TileState.Hidden := by
  intro l
  induction l with
  | nil => intro f g _ p hp; cases hp
  | cons q rest ih =>
    intro f g h p hp
    simp only [flood_list] at h
    cases hcall : flood_empty_tiles fuel f q.1 q.2 with
    | none => rw [hcall] at h; cases h
    | some ge =>
      obtain ⟨g1, e1⟩ := ge
      rw [hcall] at h
      cases e1 with
      | some e' => simp at h
      | none =>
        dsimp only at h
        rcases List.mem_cons.mp hp with hpq | hpr
        · subst hpq
          obtain ⟨s, hs⟩ := flood_ok_state_exists hcall
          have hres := flood_result_state hcall hs
          obtain ⟨t1, hgt1, ht1⟩ := get_tile_state_ok_iff.mp hres
          have ht1n : t1.state ≠ TileState.Hidden := by
            rw [ht1]
            by_cases hsf : s = TileState.Flagged
            · rw [if_pos hsf]; decide
            · rw [if_neg hsf]; decide
          exact (flood_list_evolve h).get_tile_nonhidden hgt1 ht1n
        · exact ih g1 g h p hpr

theorem new_sat_refl (f : MineField) : new_sat f f := by
  intro x1 x2 hH hV
  rw [hH] at hV
  simp at hV

theorem flood_list_new_sat_of
    (floodF : MineField → Nat → Nat → Option (MineField × Option String))
    (hEv : ∀ f r c g e, floodF f r c = some (g, e) → Evolve f g)
    (hNS : ∀ f r c g, floodF f r c = some (g, none) → new_sat f g) :
    ∀ (l : List (Nat × Nat)) (f g : MineField),
      flood_list floodF f l = some (g, none) → new_sat f g := by
  intro l
  induction l with
  | nil =>
    intro f g h
    simp only [flood_list, Option.some.injEq, Prod.mk.injEq] at h
    rw [← h.1]
    exact new_sat_refl f
  | cons q rest ih =>
    intro f g h
    simp only [flood_list] at h
    cases hcall : floodF f q.1 q.2 with
    | none => rw [hcall] at h; cases h
    | some ge =>
      obtain ⟨g1, e1⟩ := ge
      rw [hcall] at h
      cases e1 with
      | some e' => simp at h
      | none =>
        dsimp only at h
        have hev1 : Evolve f g1 := hEv f q.1 q.2 g1 none hcall
        intro x1 x2 hH hV hz l' hl' p hp
        obtain ⟨t, hgt, hts⟩ := get_tile_state_ok_iff.mp hH
        obtain ⟨t1, hgt1, hstep⟩ := hev1.get_tile_ok hgt
        rcases hstep.2 with hsame | ⟨-, hvis⟩
        · have hH1 : g1.get_tile_state x1 x2 = .ok TileState.Hidden :=
            get_tile_state_ok_iff.mpr ⟨t1, hgt1, by rw [hsame, hts]⟩
          have hz1 : g1.has_mines_near x1 x2 = .ok false := by
            rw [hev1.has_mines_near_eq]; exact hz
          have hl1 : g1.get_indices_near x1 x2 = .ok l' := by
            rw [hev1.get_indices_near_eq]; exact hl'
          exact ih g1 g h x1 x2 hH1 hV hz1 l' hl1 p hp
        · have hV1 : g1.get_tile_state x1 x2 = .ok TileState.Visible :=
            get_tile_state_ok_iff.mpr ⟨t1, hgt1, hvis⟩
          obtain ⟨t', hgt', ht'⟩ := hNS f q.1 q.2 g1 hcall x1 x2 hH hV1 hz l' hl' p hp
          exact (flood_list_evolve_of floodF hEv rest g1 g none h).get_tile_nonhidden hgt' ht'

theorem dig_tile_state_other {f : MineField} {row column x1 x2 : Nat}
    (hne : ¬(x1 = row ∧ x2 = column)) (hx : f.position_is_valid x1 x2 = true) :
    (f.dig_tile row column).1.get_tile_state x1 x2 = f.get_tile_state x1 x2 := by
  unfold get_tile_state
  rw [dig_tile_get_other hne hx]

theorem flood_new_sat : ∀ (fuel : Nat) (f : MineField) (row column : Nat) (g : MineField),
    flood_empty_tiles fuel f row column = some (g, none) → new_sat f g := by
  intro fuel
  induction fuel with
  | zero => intro f r c g h; simp [flood_empty_tiles] at h
  | succ n ih =>
    intro f row column g h
    rw [flood_empty_tiles] at h
    cases hs : f.get_tile_state row column with
    | error e =>
      rw [hs] at h
      simp at h
    | ok s =>
      rw [hs] at h
      dsimp only at h
      by_cases hsv : s = TileState.Visible
      · rw [if_pos hsv] at h
        simp only [Option.some.injEq, Prod.mk.injEq] at h
        rw [← h.1]
        exact new_sat_refl f
      · rw [if_neg hsv] at h
        rcases hdig : f.dig_tile row column with ⟨f1, e1⟩
        rw [hdig] at h
        have hev1 : Evolve f f1 := by
          have hd := dig_tile_fst_evolve f row column
          rw [hdig] at hd
          exact hd
        cases e1 with
        | some e' => simp at h
        | none =>
          dsimp only at h
          cases hm : f1.has_mines_near row column with
          | error e =>
            rw [hm] at h
            simp at h
          | ok b =>
            rw [hm] at h
            dsimp only at h
            cases b with
            | true =>
              simp only [if_true, Option.some.injEq, Prod.mk.injEq] at h
              rw [← h.1]
              intro x1 x2 hH hV hz l' hl' p hp
              by_cases hxe : x1 = row ∧ x2 = column
              · obtain ⟨hx1, hx2⟩ := hxe
                subst hx1
                subst hx2
                rw [hev1.has_mines_near_eq, hz] at hm
                cases hm
              · have hxv : f.position_is_valid x1 x2 = true := by
                  obtain ⟨t, hgt, -⟩ := get_tile_state_ok_iff.mp hH
                  exact (get_tile_ok_iff.mp hgt).1
                have hfx : f1.get_tile_state x1 x2 = f.get_tile_state x1 x2 := by
                  have hd := @dig_tile_state_other f row column x1 x2 hxe hxv
                  rw [hdig] at hd
                  exact hd
                rw [hfx, hH] at hV
                simp at hV
            | false =>
              simp only [if_false, Bool.false_eq_true] at h
              cases hidx : f1.get_indices_near row column with
              | error e =>
                rw [hidx] at h
                simp at h
              | ok idxs =>
                rw [hidx] at h
                dsimp only at h
                intro x1 x2 hH hV hz l' hl' p hp
                by_cases hxe : x1 = row ∧ x2 = column
                · obtain ⟨hx1, hx2⟩ := hxe
                  subst hx1
                  subst hx2
                  have heq : f1.get_indices_near x1 x2 = f.get_indices_near x1 x2 :=
                    hev1.get_indices_near_eq x1 x2
                  rw [hidx, hl'] at heq
                  cases heq
                  exact flood_list_all_nonhidden idxs f1 g h p hp
                · have hxv : f.position_is_valid x1 x2 = true := by
                    obtain ⟨t, hgt, -⟩ := get_tile_state_ok_iff.mp hH
                    exact (get_tile_ok_iff.mp hgt).1
                  have hfx : f1.get_tile_state x1 x2 = f.get_tile_state x1 x2 := by
                    have hd := @dig_tile_state_other f row column x1 x2 hxe hxv
                    rw [hdig] at hd
                    exact hd
                  have hsat := flood_list_new_sat_of _
                    (fun f r c g e => flood_evolve n f r c g e)
                    (fun f r c g hh => ih f r c g hh) idxs f1 g h
                  refine hsat x1 x2 (by rw [hfx]; exact hH) hV ?_ l' ?_ p hp
                  · rw [hev1.has_mines_near_eq]
                    exact hz
                  · rw [hev1.get_indices_near_eq]
                    exact hl'

theorem reach_via_of_evolve {f h : MineField} (hev : Evolve f h) {s X : Nat × Nat}
    (hr : ReachVia h s X) : ReachVia f s X := by
  induction hr with
  | base => exact ReachVia.base
  | step p q hp s' hs' hsv hz l hl hq ih =>
    obtain ⟨t', hgt', hts'⟩ := get_tile_state_ok_iff.mp hs'
    obtain ⟨t, hgt, hstep⟩ := hev.get_tile_ok_rev hgt'
    refine ReachVia.step p q ih t.state (get_tile_state_ok_iff.mpr ⟨t, hgt, rfl⟩)
      ?_ ?_ l ?_ hq
    · intro hvt
      rcases hstep.2 with hsame | ⟨hhid, -⟩
      · exact hsv (by rw [← hts', hsame, hvt])
      · rw [hvt] at hhid
        cases hhid
    · rw [← hev.has_mines_near_eq]
      exact hz
    · rw [← hev.get_indices_near_eq]
      exact hl

theorem reach_via_trans {f : MineField} {a m X : Nat × Nat} (h1 : ReachVia f a m)
    (h2 : ReachVia f m X) : ReachVia f a X := by
  induction h2 with
  | base => exact h1
  | step p q hp s hs hsv hz l hl hq ih => exact ReachVia.step p q ih s hs hsv hz l hl hq

theorem dig_tile_error_fst {f : MineField} {row column : Nat} {f1 : MineField} {e : String}
    (h : f.dig_tile row column = (f1, some e)) : f1 = f := by
  unfold dig_tile at h
  cases hget : f.get_tile row column with
  | error e0 =>
    rw [hget] at h
    simp only [Prod.mk.injEq] at h
    exact h.1.symm
  | ok tile =>
    rw [hget] at h
    dsimp only at h
    obtain ⟨st, m⟩ := tile
    cases st <;> simp at h

theorem flood_list_sound_of
    (floodF : MineField → Nat → Nat → Option (MineField × Option String))
    (hEv : ∀ f r c g e, floodF f r c = some (g, e) → Evolve f g)
    (hS : ∀ f r c g e, floodF f r c = some (g, e) →
      ∀ (x1 x2 : Nat) (t t' : Tile), f.get_tile x1 x2 = .ok t →
        g.get_tile x1 x2 = .ok t' → t' ≠ t → ReachVia f (r, c) (x1, x2)) :
    ∀ (l : List (Nat × Nat)) (f g : MineField) (e : Option String),
      flood_list floodF f l = some (g, e) →
      ∀ (x1 x2 : Nat) (t t' : Tile), f.get_tile x1 x2 = .ok t →
        g.get_tile x1 x2 = .ok t' → t' ≠ t →
        ∃ q ∈ l, ReachVia f q (x1, x2) := by
  intro l
  induction l with
  | nil =>
    intro f g e h x1 x2 t t' hft hgt hne
    simp only [flood_list, Option.some.injEq, Prod.mk.injEq] at h
    rw [← h.1] at hgt
    rw [hft] at hgt
    cases hgt
    exact absurd rfl hne
  | cons q rest ih =>
    intro f g e h x1 x2 t t' hft hgt hne
    simp only [flood_list] at h
    cases hcall : floodF f q.1 q.2 with
    | none => rw [hcall] at h; cases h
    | some ge =>
      obtain ⟨g1, e1⟩ := ge
      rw [hcall] at h
      cases e1 with
      | some e' =>
        simp only [Option.some.injEq, Prod.mk.injEq] at h
        rw [← h.1] at hgt
        exact ⟨q, List.mem_cons_self .., hS f q.1 q.2 g1 (some e') hcall x1 x2 t t' hft hgt hne⟩
      | none =>
        dsimp only at h
        have hev1 : Evolve f g1 := hEv f q.1 q.2 g1 none hcall
        obtain ⟨t1, hg1t, hstep⟩ := hev1.get_tile_ok hft
        by_cases ht1 : t1 = t
        · subst ht1
          obtain ⟨q', hq', hr⟩ := ih g1 g e h x1 x2 t1 t' hg1t hgt hne
          exact ⟨q', List.mem_cons_of_mem _ hq', reach_via_of_evolve hev1 hr⟩
        · exact ⟨q, List.mem_cons_self ..,
            hS f q.1 q.2 g1 none hcall x1 x2 t t1 hft hg1t ht1⟩

theorem flood_sound : ∀ (fuel : Nat) (f : MineField) (row column : Nat)
    (g : MineField) (e : Option String),
    flood_empty_tiles fuel f row column = some (g, e) →
    ∀ (x1 x2 : Nat) (t t' : Tile), f.get_tile x1 x2 = .ok t →
      g.get_tile x1 x2 = .ok t' → t' ≠ t →
      ReachVia f (row, column) (x1, x2) := by
  intro fuel
  induction fuel with
  | zero => intro f r c g e h; simp [flood_empty_tiles] at h
  | succ n ih =>
    intro f row column g e h x1 x2 t t' hft hgt hne
    rw [flood_empty_tiles] at h
    cases hs : f.get_tile_state row column with
    | error e0 =>
      rw [hs] at h
      simp only [Option.some.injEq, Prod.mk.injEq] at h
      rw [← h.1, hft] at hgt
      cases hgt
      exact absurd rfl hne
    | ok s =>
      rw [hs] at h
      dsimp only at h
      by_cases hsv : s = TileState.Visible
      · rw [if_pos hsv] at h
        simp only [Option.some.injEq, Prod.mk.injEq] at h
        rw [← h.1, hft] at hgt
        cases hgt
        exact absurd rfl hne
      · rw [if_neg hsv] at h
        rcases hdig : f.dig_tile row column with ⟨f1, e1⟩
        rw [hdig] at h
        have hev1 : Evolve f f1 := by
          have hd := dig_tile_fst_evolve f row column
          rw [hdig] at hd
          exact hd
        have hroot : ∀ t1 : Tile, f1.get_tile x1 x2 = .ok t1 → t1 ≠ t →
            ReachVia f (row, column) (x1, x2) := by
          intro t1 hf1t ht1
          by_cases hxe : x1 = row ∧ x2 = column
          · obtain ⟨hx1, hx2⟩ := hxe
            subst hx1
            subst hx2
            exact ReachVia.base
          · exfalso
            have hxv : f.position_is_valid x1 x2 = true := (get_tile_ok_iff.mp hft).1
            have hd := @dig_tile_get_other f row column x1 x2 hxe hxv
            rw [hdig] at hd
            dsimp only at hd
            rw [hd, hft] at hf1t
            cases hf1t
            exact ht1 rfl
        cases e1 with
        | some e' =>
          have hf1f : f1 = f := dig_tile_error_fst hdig
          simp only [Option.some.injEq, Prod.mk.injEq] at h
          rw [← h.1, hf1f, hft] at hgt
          cases hgt
          exact absurd rfl hne
        | none =>
          dsimp only at h
          obtain ⟨t1, hf1t, hstep1⟩ := hev1.get_tile_ok hft
          by_cases ht1 : t1 = t
          · subst ht1
            cases hm : f1.has_mines_near row column with
            | error e0 =>
              rw [hm] at h
              simp only [Option.some.injEq, Prod.mk.injEq] at h
              rw [← h.1, hf1t] at hgt
              cases hgt
              exact absurd rfl hne
            | ok b =>
              rw [hm] at h
              dsimp only at h
              cases b with
              | true =>
                simp only [if_true, Option.some.injEq, Prod.mk.injEq] at h
                rw [← h.1, hf1t] at hgt
                cases hgt
                exact absurd rfl hne
              | false =>
                simp only [if_false, Bool.false_eq_true] at h
                cases hidx : f1.get_indices_near row column with
                | error e0 =>
                  rw [hidx] at h
                  simp only [Option.some.injEq, Prod.mk.injEq] at h
                  rw [← h.1, hf1t] at hgt
                  cases hgt
                  exact absurd rfl hne
                | ok idxs =>
                  rw [hidx] at h
                  dsimp only at h
                  obtain ⟨q, hq, hreach1⟩ := flood_list_sound_of _
                    (fun f r c g e => flood_evolve n f r c g e)
                    (fun f r c g e hh => ih f r c g e hh) idxs f1 g e h
                    x1 x2 t1 t' hf1t hgt hne
                  have hreach : ReachVia f q (x1, x2) := reach_via_of_evolve hev1 hreach1
                  have hrootq : ReachVia f (row, column) q := by
                    refine ReachVia.step (row, column) q ReachVia.base s hs hsv ?_ idxs ?_ hq
                    · rw [← hev1.has_mines_near_eq]
                      exact hm
                    · rw [← hev1.get_indices_near_eq]
                      exact hidx
                  exact reach_via_trans hrootq hreach
          · exact hroot t1 hf1t ht1

end MineField

open MineField

/-- C1: evaluation of `game_over` on a field holding both a correctly
flagged mine (index 0) and a misflagged mine-free tile (index 1): the
code makes the correctly flagged mine Visible and leaves the misflag
Flagged - precisely the opposite of the spec sentence (and of the
function's own doc comment "Make all tiles visible except correct
flags"). -/
theorem C1_game_over_reverses_flag_rule :
    game_over fieldFlagsBoth =
      { width := 2, height := 2, mines := 1, flags := 2
        tiles :=
          [ { state := TileState.Visible, has_mine := true }
          , { state := TileState.Flagged, has_mine := false }
          , { state := TileState.Visible, has_mine := false }
          , { state := TileState.Visible, has_mine := false } ] } ∧
    (fieldFlagsBoth.get_tile_state 0 0 = .ok TileState.Flagged ∧
      fieldFlagsBoth.has_mine_at 0 0 = .ok true ∧
      (game_over fieldFlagsBoth).get_tile_state 0 0 = .ok TileState.Visible) ∧
    (fieldFlagsBoth.get_tile_state 0 1 = .ok TileState.Flagged ∧
      fieldFlagsBoth.has_mine_at 0 1 = .ok false ∧
      (game_over fieldFlagsBoth).get_tile_state 0 1 = .ok TileState.Flagged) :=
  ⟨rfl, ⟨rfl, rfl, rfl⟩, ⟨rfl, rfl, rfl⟩⟩

/-- C2: on the single-row field `empty 2 1` (width 2, height 1) the
position (0,0) is valid, yet `count_mines_near` and `has_mines_near`
return an error (the neighbourhood wrongly contains row 1), and
`clear_first_opening` hits that error under `unwrap`, i.e. the Rust
program panics on a valid, in-range input. -/
theorem C2_errors_on_valid_position :
    (empty 2 1).position_is_valid 0 0 = true ∧
    (empty 2 1).has_mines_near 0 0 = .error tileNotInRange ∧
    (empty 2 1).count_mines_near 0 0 = .error tileNotInRange ∧
    clear_first_opening 1 (empty 2 1) (fun _ => none) =
      some (.error tileNotInRange) :=
  ⟨rfl, rfl, rfl, rfl⟩

/-- C3: evaluation of `get_indices_near` at the valid position (0,0) of
the single-row field `empty 2 1`: the returned list contains (1,0) and
(1,1), which are not valid positions (row 1 does not exist), refuting
the claim that every returned position is valid. -/
theorem C3_get_indices_near_returns_invalid :
    (empty 2 1).position_is_valid 0 0 = true ∧
    (empty 2 1).get_indices_near 0 0 = .ok [(0, 1), (1, 0), (1, 1)] ∧
    (empty 2 1).position_is_valid 1 0 = false ∧
    (empty 2 1).position_is_valid 1 1 = false :=
  ⟨rfl, rfl, rfl, rfl⟩

/-- C6: the claim "flood_empty_tiles terminates on every field and valid
position" fails on the code: on a 2x2 mine-free field whose two
off-diagonal tiles are Flagged, flooding the Hidden corner (0,0)
recurses between the two flagged zero-adjacent-mine tiles forever - no
recursion depth suffices. -/
theorem C6_flood_empty_tiles_diverges :
    ∀ fuel : Nat, flood_empty_tiles fuel fieldFloodLoop 0 0 = none := by
  have hs : fieldFloodLoop.get_tile_state 0 0 = .ok TileState.Hidden := rfl
  have hd : fieldFloodLoop.dig_tile 0 0 = (fieldFloodLoopDug, none) := rfl
  have hm : fieldFloodLoopDug.has_mines_near 0 0 = .ok false := rfl
  have hi : fieldFloodLoopDug.get_indices_near 0 0 = .ok [(0, 1), (1, 0), (1, 1)] := rfl
  intro fuel
  cases fuel with
  | zero => rfl
  | succ m =>
    rw [flood_empty_tiles, hs]
    dsimp only
    rw [if_neg (by decide), hd]
    dsimp only
    rw [hm]
    dsimp only
    rw [if_neg (by decide), hi]
    cases m with
    | zero => rfl
    | succ k =>
      simp only [flood_list, (flood_loop_aux (k + 1)).1]

/-- C9: `get_state` returns Failed exactly when some tile is Visible and
mined, Cleared exactly when no tile is Visible-and-mined and no mine-free
tile is Hidden, and InProgress otherwise (it is a pure function of the
field and modifies nothing). -/
theorem C9_get_state_characterization (f : MineField) :
    (f.get_state = MineFieldState.Failed ↔
      ∃ t ∈ f.tiles, t.state = TileState.Visible ∧ t.has_mine = true) ∧
    (f.get_state = MineFieldState.Cleared ↔
      (¬∃ t ∈ f.tiles, t.state = TileState.Visible ∧ t.has_mine = true) ∧
      ¬∃ t ∈ f.tiles, t.state = TileState.Hidden ∧ t.has_mine = false) ∧
    (f.get_state = MineFieldState.InProgress ↔
      (¬∃ t ∈ f.tiles, t.state = TileState.Visible ∧ t.has_mine = true) ∧
      ∃ t ∈ f.tiles, t.state = TileState.Hidden ∧ t.has_mine = false) := by
  unfold get_state
  have hF := get_state_go_failed f.tiles true
  have hC := get_state_go_cleared f.tiles true
  refine ⟨hF, ?_, ?_⟩
  · rw [hC]
    constructor
    · rintro ⟨h1, -, h3⟩
      exact ⟨fun ⟨t, ht, hp⟩ => h1 t ht hp, fun ⟨t, ht, hp⟩ => h3 t ht hp⟩
    · rintro ⟨h1, h3⟩
      exact ⟨fun t ht hp => h1 ⟨t, ht, hp⟩, rfl, fun t ht hp => h3 ⟨t, ht, hp⟩⟩
  · constructor
    · intro h
      have hnf : ¬∃ t ∈ f.tiles, t.state = TileState.Visible ∧ t.has_mine = true := by
        intro hex
        rw [hF.mpr hex] at h
        cases h
      refine ⟨hnf, ?_⟩
      by_contra hnh
      have hcl : get_state_go f.tiles true = MineFieldState.Cleared :=
        hC.mpr ⟨fun t ht hp => hnf ⟨t, ht, hp⟩, rfl, fun t ht hp => hnh ⟨t, ht, hp⟩⟩
      rw [hcl] at h
      cases h
    · rintro ⟨hnf, hex⟩
      cases hgo : get_state_go f.tiles true with
      | Failed => exact absurd (hF.mp hgo) hnf
      | Cleared =>
        obtain ⟨-, -, h3⟩ := hC.mp hgo
        obtain ⟨t, ht, hp⟩ := hex
        exact absurd hp (h3 t ht)
      | InProgress => rfl

/-- C8: `populate` fails with the insufficient-space error exactly when
`amount` exceeds the number of mine-free tiles, leaving the field
unchanged - this holds for every sampled index list, since the Rust
code performs the length check before it ever samples; on success
(where the sampled list carries the contract of
`rand::seq::index::sample`: `amount` distinct indices into the
mine-free list) it returns Ok, marks exactly `amount` previously
mine-free tiles as mined (mined tiles are never unmarked), adds
`amount` to the mines counter and changes no tile state and no other
component. -/
theorem C8_populate_spec (f : MineField) (chosen : List Nat) (amount : Nat) :
    (f.empty_tile_indices.length = f.tiles.countP fun t => !t.has_mine) ∧
    ((f.tiles.countP fun t => !t.has_mine) < amount →
      f.populate chosen amount = (f, some notEnoughSpace)) ∧
    (amount ≤ (f.tiles.countP fun t => !t.has_mine) →
      chosen.length = amount → chosen.Nodup →
      (∀ j ∈ chosen, j < f.empty_tile_indices.length) →
      (f.populate chosen amount).2 = none ∧
      (f.populate chosen amount).1.width = f.width ∧
      (f.populate chosen amount).1.height = f.height ∧
      (f.populate chosen amount).1.flags = f.flags ∧
      (f.populate chosen amount).1.mines = f.mines + amount ∧
      (f.populate chosen amount).1.tiles.length = f.tiles.length ∧
      ((f.populate chosen amount).1.tiles.countP fun t => t.has_mine)
        = (f.tiles.countP fun t => t.has_mine) + amount ∧
      (∀ (i : Nat) (t t' : Tile), f.tiles[i]? = some t →
        (f.populate chosen amount).1.tiles[i]? = some t' →
        t'.state = t.state ∧ (t.has_mine = true → t'.has_mine = true))) := by
  have hl := empty_tile_indices_length f
  refine ⟨hl, ?_, ?_⟩
  · intro hcnt
    unfold populate
    rw [if_pos (by rw [hl]; exact hcnt)]
  · intro hcnt hlen hnd hbd
    have hcond : ¬(f.empty_tile_indices.length < amount) := by rw [hl]; omega
    obtain ⟨hlen2, hcount, hpt⟩ :=
      fold_mark_spec f.empty_tile_indices (empty_tile_indices_nodup f) chosen f.tiles hnd hbd
        (fun j hj i hji => by
          obtain ⟨hilt, hie⟩ := List.getElem?_eq_some_iff.mp hji
          exact mem_empty_tile_indices.mp (hie ▸ List.getElem_mem hilt))
    unfold populate
    rw [if_neg hcond]
    exact ⟨rfl, rfl, rfl, rfl, rfl, hlen2, by rw [hcount, hlen], hpt⟩

/-- C8 witness: both branches of `C8_populate_spec` fire at concrete
inputs - asking the 2x2 empty field (4 mine-free tiles) for 5 mines
fails with the insufficient-space error and leaves the field unchanged,
while sampling indices [0, 2] for 2 mines succeeds, adds 2 to the mine
counter and ends with exactly two mined tiles. -/
theorem C8_populate_spec_witness :
    (MineField.empty 2 2).populate [0, 1, 2, 3, 4] 5 =
      (MineField.empty 2 2, some notEnoughSpace) ∧
    ((MineField.empty 2 2).populate [0, 2] 2).2 = none ∧
    ((MineField.empty 2 2).populate [0, 2] 2).1.mines = (MineField.empty 2 2).mines + 2 ∧
    (((MineField.empty 2 2).populate [0, 2] 2).1.tiles.countP fun t => t.has_mine)
      = ((MineField.empty 2 2).tiles.countP fun t => t.has_mine) + 2 := by
  have herr := C8_populate_spec (MineField.empty 2 2) [0, 1, 2, 3, 4] 5
  have hok := C8_populate_spec (MineField.empty 2 2) [0, 2] 2
  obtain ⟨h1, -, -, -, h5, -, h7, -⟩ :=
    hok.2.2 (by decide) rfl (by decide) (by decide)
  exact ⟨herr.2.1 (by decide), h1, h5, h7⟩

/-- C4: the claim fails at `game_over`: on a field satisfying the flags
invariant whose single flag covers a mine, `game_over` turns the Flagged
tile Visible without decrementing the `flags` counter, so the invariant
is broken afterwards. -/
theorem C4_game_over_breaks_flags_invariant :
    flags_invariant fieldOneFlaggedMine ∧
    ¬flags_invariant (game_over fieldOneFlaggedMine) := by
  constructor
  · rfl
  · intro h
    unfold flags_invariant at h
    exact absurd h (by decide)

/-- C4 (amended): the invariant "flags equals the number of Flagged
tiles" holds for a freshly constructed field and is preserved by
populate, toggle_flag, dig_tile, flood_empty_tiles, do_chord and
clear_first_opening - but not by game_over (see the counterexample). -/
theorem C4_flags_invariant_preserved :
    (∀ w h : Nat, flags_invariant (MineField.empty w h)) ∧
    (∀ (f : MineField) (chosen : List Nat) (amount : Nat),
      flags_invariant f → flags_invariant (f.populate chosen amount).1) ∧
    (∀ (f : MineField) (row column : Nat),
      flags_invariant f → flags_invariant (f.toggle_flag row column).1) ∧
    (∀ (f : MineField) (row column : Nat),
      flags_invariant f → flags_invariant (f.dig_tile row column).1) ∧
    (∀ (fuel : Nat) (f : MineField) (row column : Nat) (g : MineField) (e : Option String),
      flood_empty_tiles fuel f row column = some (g, e) →
      flags_invariant f → flags_invariant g) ∧
    (∀ (fuel : Nat) (f : MineField) (row column : Nat) (g : MineField) (e : Option String),
      do_chord fuel f row column = some (g, e) →
      flags_invariant f → flags_invariant g) ∧
    (∀ (fuel : Nat) (f : MineField) (pick : List (Nat × Nat) → Option (Nat × Nat))
      (g : MineField) (p : Option (Nat × Nat)),
      clear_first_opening fuel f pick = some (.ok (g, p)) →
      flags_invariant f → flags_invariant g) := by
  refine ⟨?_, ?_, ?_, ?_, ?_, ?_, ?_⟩
  · intro w h
    unfold flags_invariant MineField.empty
    symm
    rw [List.countP_eq_zero]
    intro a ha
    rw [List.eq_of_mem_replicate ha]
    decide
  · intro f chosen amount hi
    unfold populate
    by_cases hc : f.empty_tile_indices.length < amount
    · rw [if_pos hc]
      exact hi
    · rw [if_neg hc]
      unfold flags_invariant at hi ⊢
      dsimp only
      rw [hi]
      obtain ⟨hlen, hpt⟩ := populate_fold_states f.empty_tile_indices chosen f.tiles
      exact (countP_congr_of_pointwise (fun t => decide (t.state = TileState.Flagged))
        f.tiles _ hlen
        (fun i a b h1 h2 => by simp only [hpt i a b h1 h2])).symm
  · intro f row column hi
    unfold toggle_flag
    cases hget : f.get_tile row column with
    | error e => exact hi
    | ok tile =>
      dsimp only
      obtain ⟨hv, hsome⟩ := get_tile_ok_iff.mp hget
      have hlt : row * f.width + column < f.tiles.length :=
        (List.getElem?_eq_some_iff.mp hsome).1
      cases hstate : tile.state with
      | Hidden =>
        unfold flags_invariant at hi ⊢
        unfold set_tile
        dsimp only
        rw [countP_set_incr (fun t => decide (t.state = TileState.Flagged))
          f.tiles _ tile { tile with state := TileState.Flagged } hsome
          (by simp [hstate]) (by simp), hi]
      | Flagged =>
        unfold flags_invariant at hi ⊢
        unfold set_tile
        dsimp only
        have hdec := countP_set_decr (fun t => decide (t.state = TileState.Flagged))
          f.tiles (row * f.width + column) tile { tile with state := TileState.Hidden }
          hsome (by simp [hstate]) (by simp)
        have hpos : 0 < f.tiles.countP fun t => decide (t.state = TileState.Flagged) := by
          omega
        omega
      | Visible => exact hi
  · intro f row column hi
    unfold dig_tile
    cases hget : f.get_tile row column with
    | error e => exact hi
    | ok tile =>
      dsimp only
      obtain ⟨hv, hsome⟩ := get_tile_ok_iff.mp hget
      cases hstate : tile.state with
      | Hidden =>
        unfold flags_invariant at hi ⊢
        unfold set_tile
        dsimp only
        rw [countP_set_congr (fun t => decide (t.state = TileState.Flagged))
          f.tiles _ tile { tile with state := TileState.Visible } hsome
          (by simp [hstate]), hi]
      | Flagged => exact hi
      | Visible => exact hi
  · intro fuel f row column g e h hi
    exact (flood_evolve fuel f row column g e h).flags_invariant_of hi
  · intro fuel f row column g e h hi
    exact (do_chord_evolve h).flags_invariant_of hi
  · intro fuel f pick g p h hi
    exact (clear_first_opening_evolve h).flags_invariant_of hi

/-- C4 witness: the preservation theorem applies at concrete inputs -
the invariant holds on `fieldOneFlaggedMine` and is preserved by a
concrete toggle, a concrete dig and a concrete terminating flood. -/
theorem C4_flags_invariant_preserved_witness :
    flags_invariant (MineField.empty 2 2) ∧
    flags_invariant (fieldOneFlaggedMine.toggle_flag 0 1).1 ∧
    flags_invariant (fieldOneFlaggedMine.dig_tile 1 1).1 ∧
    flags_invariant
      { width := 2, height := 2, mines := 1, flags := 1
        tiles :=
          [ { state := TileState.Flagged, has_mine := true }
          , { state := TileState.Hidden, has_mine := false }
          , { state := TileState.Hidden, has_mine := false }
          , { state := TileState.Visible, has_mine := false } ] } := by
  have h := C4_flags_invariant_preserved
  refine ⟨h.1 2 2, h.2.2.1 fieldOneFlaggedMine 0 1 rfl, h.2.2.2.1 fieldOneFlaggedMine 1 1 rfl, ?_⟩
  exact h.2.2.2.2.1 5 fieldOneFlaggedMine 1 1 _ none rfl rfl

/-- C10: visibility is absorbing: a Visible tile stays Visible (and in
place) across toggle_flag, dig_tile, populate, flood_empty_tiles,
do_chord, clear_first_opening and game_over - no operation re-hides or
re-flags it. -/
theorem C10_visible_absorbing :
    (∀ (f : MineField) (row column : Nat),
      visible_preserved f (f.toggle_flag row column).1) ∧
    (∀ (f : MineField) (row column : Nat),
      visible_preserved f (f.dig_tile row column).1) ∧
    (∀ (f : MineField) (chosen : List Nat) (amount : Nat),
      visible_preserved f (f.populate chosen amount).1) ∧
    (∀ (fuel : Nat) (f : MineField) (row column : Nat) (g : MineField) (e : Option String),
      flood_empty_tiles fuel f row column = some (g, e) → visible_preserved f g) ∧
    (∀ (fuel : Nat) (f : MineField) (row column : Nat) (g : MineField) (e : Option String),
      do_chord fuel f row column = some (g, e) → visible_preserved f g) ∧
    (∀ (fuel : Nat) (f : MineField) (pick : List (Nat × Nat) → Option (Nat × Nat))
      (g : MineField) (p : Option (Nat × Nat)),
      clear_first_opening fuel f pick = some (.ok (g, p)) → visible_preserved f g) ∧
    (∀ f : MineField, visible_preserved f (game_over f)) := by
  refine ⟨?_, ?_, ?_, ?_, ?_, ?_, ?_⟩
  · intro f row column
    unfold toggle_flag
    cases hget : f.get_tile row column with
    | error e => exact visible_preserved_refl f
    | ok tile =>
      dsimp only
      obtain ⟨hv, hsome⟩ := get_tile_ok_iff.mp hget
      cases hstate : tile.state with
      | Visible => exact visible_preserved_refl f
      | Hidden =>
        intro i t ht htv
        refine ⟨t, ?_, htv⟩
        unfold set_tile
        dsimp only
        by_cases hi : row * f.width + column = i
        · subst hi
          rw [hsome] at ht
          cases ht
          rw [hstate] at htv
          cases htv
        · rw [List.getElem?_set_ne hi]
          exact ht
      | Flagged =>
        intro i t ht htv
        refine ⟨t, ?_, htv⟩
        unfold set_tile
        dsimp only
        by_cases hi : row * f.width + column = i
        · subst hi
          rw [hsome] at ht
          cases ht
          rw [hstate] at htv
          cases htv
        · rw [List.getElem?_set_ne hi]
          exact ht
  · intro f row column
    exact (dig_tile_fst_evolve f row column).visible_preserved_of
  · intro f chosen amount
    unfold populate
    by_cases hc : f.empty_tile_indices.length < amount
    · rw [if_pos hc]
      exact visible_preserved_refl f
    · rw [if_neg hc]
      intro i t ht htv
      dsimp only
      obtain ⟨hlen, hpt⟩ := populate_fold_states f.empty_tile_indices chosen f.tiles
      have hk : i < (chosen.foldl (fun ts j =>
          match f.empty_tile_indices[j]? with
          | some i => mark_mine ts i
          | none => ts) f.tiles).length := by
        rw [hlen]
        exact (List.getElem?_eq_some_iff.mp ht).1
      obtain ⟨t', ht'⟩ : ∃ t', (chosen.foldl (fun ts j =>
          match f.empty_tile_indices[j]? with
          | some i => mark_mine ts i
          | none => ts) f.tiles)[i]? = some t' :=
        ⟨_, List.getElem?_eq_some_iff.mpr ⟨hk, rfl⟩⟩
      exact ⟨t', ht', by rw [hpt i t t' ht ht', htv]⟩
  · intro fuel f row column g e h
    exact (flood_evolve fuel f row column g e h).visible_preserved_of
  · intro fuel f row column g e h
    exact (do_chord_evolve h).visible_preserved_of
  · intro fuel f pick g p h
    exact (clear_first_opening_evolve h).visible_preserved_of
  · intro f
    intro i t ht htv
    unfold game_over
    dsimp only
    rw [List.getElem?_map, ht]
    refine ⟨_, rfl, ?_⟩
    dsimp only
    simp [htv]

/-- C10 witness: concrete instances - a terminating flood, a chord and
a clear_first_opening call on 2x2 fields, plus game_over, all preserve
the Visible corner tile. -/
theorem C10_visible_absorbing_witness :
    visible_preserved fieldChordOpen
      { width := 2, height := 2, mines := 0, flags := 0
        tiles :=
          [ { state := TileState.Visible, has_mine := false }
          , { state := TileState.Visible, has_mine := false }
          , { state := TileState.Visible, has_mine := false }
          , { state := TileState.Visible, has_mine := false } ] } ∧
    visible_preserved fieldChordOpen
      { width := 2, height := 2, mines := 0, flags := 0
        tiles :=
          [ { state := TileState.Visible, has_mine := false }
          , { state := TileState.Visible, has_mine := false }
          , { state := TileState.Visible, has_mine := false }
          , { state := TileState.Visible, has_mine := false } ] } ∧
    visible_preserved fieldOneFlaggedMine fieldOneFlaggedMine ∧
    visible_preserved fieldFlagsBoth (game_over fieldFlagsBoth) := by
  have h := C10_visible_absorbing
  refine ⟨?_, ?_, ?_, h.2.2.2.2.2.2 fieldFlagsBoth⟩
  · exact h.2.2.2.1 9 fieldChordOpen 1 1 _ none rfl
  · exact h.2.2.2.2.1 9 fieldChordOpen 0 0 _ none rfl
  · exact h.2.2.2.2.2.1 9 fieldOneFlaggedMine (fun _ => none) _ none rfl

/-- C7: the claim fails on degenerate single-row grids: on the 1x2 field
`fieldChordNarrow` position (0,0) is valid and Visible, there are no
flags and no mines (so the flagged-neighbour count trivially equals the
mined-neighbour count), yet do_chord returns an out-of-range error and
the Hidden neighbour (0,1) stays Hidden instead of becoming Visible. -/
theorem C7_do_chord_counterexample :
    fieldChordNarrow.position_is_valid 0 0 = true ∧
    fieldChordNarrow.get_tile_state 0 0 = .ok TileState.Visible ∧
    fieldChordNarrow.get_tile_state 0 1 = .ok TileState.Hidden ∧
    fieldChordNarrow.has_mine_at 0 1 = .ok false ∧
    fieldChordNarrow.flags = 0 ∧ fieldChordNarrow.mines = 0 ∧
    do_chord 10 fieldChordNarrow 0 0 =
      some (fieldChordNarrow, some tileNotInRange) :=
  ⟨rfl, rfl, rfl, rfl, rfl, rfl, rfl⟩

/-- C7 (amended): on a grid with width and height at least 2, for every
valid position: if the tile is not Visible do_chord changes nothing; if
it is Visible and the flagged-neighbour count equals the mined-neighbour
count then (provided the flood recursion terminates, which the fuel
hypothesis expresses) do_chord returns Ok and every previously Hidden
neighbour is Visible afterwards; if the two counts differ the field is
returned unchanged. -/
theorem C7_do_chord_spec (f : MineField) (fuel row column : Nat) (g : MineField)
    (e : Option String) (tile : Tile) (l : List (Nat × Nat))
    (hsz : f.tiles_sized) (hw : 2 ≤ f.width) (hh : 2 ≤ f.height)
    (hget : f.get_tile row column = .ok tile)
    (hidx : f.get_indices_near row column = .ok l)
    (hrun : do_chord fuel f row column = some (g, e)) :
    (tile.state ≠ TileState.Visible → g = f ∧ e = none) ∧
    (tile.state = TileState.Visible →
      ((count_matching f l (fun t => decide (t.state = TileState.Flagged)) =
          count_matching f l (fun t => t.has_mine)) →
        e = none ∧
        ∀ p ∈ l, ∀ (t' : Tile), f.get_tile p.1 p.2 = .ok t' →
          t'.state = TileState.Hidden →
          g.get_tile_state p.1 p.2 = .ok TileState.Visible) ∧
      ((count_matching f l (fun t => decide (t.state = TileState.Flagged)) ≠
          count_matching f l (fun t => t.has_mine)) →
        g = f ∧ e = none)) := by
  have hvalid := (get_tile_ok_iff.mp hget).1
  have hr : row < f.height := (position_is_valid_iff.mp hvalid).1
  have hc : column < f.width := (position_is_valid_iff.mp hvalid).2
  obtain ⟨l', hl', hmem⟩ := get_indices_near_char hsz hw hh hr hc
  rw [hidx] at hl'
  cases hl'
  have hlvalid : ∀ p ∈ l, p.1 < f.height ∧ p.2 < f.width := by
    intro p hp
    obtain ⟨-, -, -, -, -, hph, hpw⟩ := (hmem p).mp hp
    exact ⟨hph, hpw⟩
  have hlok : ∀ p ∈ l, ∃ t, f.get_tile p.1 p.2 = .ok t := by
    intro p hp
    obtain ⟨t, -, ht⟩ := get_tile_ok_of_valid hsz (hlvalid p hp).1 (hlvalid p hp).2
    exact ⟨t, ht⟩
  unfold do_chord at hrun
  rw [hget] at hrun
  dsimp only at hrun
  by_cases hvne : tile.state ≠ TileState.Visible
  · rw [if_pos hvne] at hrun
    simp only [Option.some.injEq, Prod.mk.injEq] at hrun
    exact ⟨fun _ => ⟨hrun.1.symm, hrun.2.symm⟩, fun hv => absurd hv hvne⟩
  · rw [if_neg hvne] at hrun
    push_neg at hvne
    rw [hidx] at hrun
    dsimp only at hrun
    rw [chord_scan_spec l f hlok] at hrun
    dsimp only at hrun
    refine ⟨fun hne => absurd hvne hne, fun _ => ?_⟩
    by_cases heq : count_matching f l (fun t => decide (t.state = TileState.Flagged)) =
        count_matching f l (fun t => t.has_mine)
    · rw [if_pos heq] at hrun
      have hfval : ∀ p ∈ (l.filter fun q =>
          match f.get_tile q.1 q.2 with
          | .ok t => decide (t.state = TileState.Hidden)
          | .error _ => false), p.1 < f.height ∧ p.2 < f.width :=
        fun p hp => hlvalid p (List.mem_filter.mp hp).1
      have he : e = none := flood_list_no_error hsz hw hh hfval hrun
      subst he
      refine ⟨fun _ => ⟨rfl, ?_⟩, fun hne => absurd heq hne⟩
      intro p hp t' hpt htps
      have hpf : p ∈ l.filter fun q =>
          match f.get_tile q.1 q.2 with
          | .ok t => decide (t.state = TileState.Hidden)
          | .error _ => false := by
        rw [List.mem_filter]
        refine ⟨hp, ?_⟩
        rw [hpt]
        simp [htps]
      exact flood_list_reveals _ f g hrun p hpf TileState.Hidden
        (get_tile_state_ok_iff.mpr ⟨t', hpt, htps⟩) (by decide)
    · rw [if_neg heq] at hrun
      simp only [Option.some.injEq, Prod.mk.injEq] at hrun
      exact ⟨fun h => absurd h heq, fun _ => ⟨hrun.1.symm, hrun.2.symm⟩⟩

/-- C7 witness: on the 2x2 field with Visible corner (0,0), no flags and
no mines, the counts agree and chording reveals the Hidden neighbour
(0,1) (indeed the flood opens the whole board). -/
theorem C7_do_chord_spec_witness :
    count_matching fieldChordOpen [(0, 1), (1, 0), (1, 1)]
        (fun t => decide (t.state = TileState.Flagged)) =
      count_matching fieldChordOpen [(0, 1), (1, 0), (1, 1)] (fun t => t.has_mine) ∧
    ({ width := 2, height := 2, mines := 0, flags := 0
       tiles :=
         [ { state := TileState.Visible, has_mine := false }
         , { state := TileState.Visible, has_mine := false }
         , { state := TileState.Visible, has_mine := false }
         , { state := TileState.Visible, has_mine := false } ] } :
      MineField).get_tile_state 0 1 = .ok TileState.Visible := by
  have h := C7_do_chord_spec fieldChordOpen 9 0 0
    { width := 2, height := 2, mines := 0, flags := 0
      tiles :=
        [ { state := TileState.Visible, has_mine := false }
        , { state := TileState.Visible, has_mine := false }
        , { state := TileState.Visible, has_mine := false }
        , { state := TileState.Visible, has_mine := false } ] }
    none { state := TileState.Visible, has_mine := false } [(0, 1), (1, 0), (1, 1)]
    rfl (by decide) (by decide) rfl rfl rfl
  refine ⟨rfl, ?_⟩
  exact ((h.2 rfl).1 rfl).2 (0, 1) (by decide)
    { state := TileState.Hidden, has_mine := false } rfl rfl

/-- C5: the claim fails as stated: on `fieldFloodFlag` (2x2, mine-free,
single Flagged tile at (0,1)) position (0,0) is Hidden, mine-free and
has zero adjacent mines, the flood from (0,0) terminates successfully,
(0,1) is one of its neighbours (so reachable through zero-adjacent-mine
chains), yet (0,1) is still Flagged - not Visible - afterwards. -/
theorem C5_flood_counterexample :
    fieldFloodFlag.has_mine_at 0 0 = .ok false ∧
    fieldFloodFlag.has_mines_near 0 0 = .ok false ∧
    fieldFloodFlag.get_tile_state 0 0 = .ok TileState.Hidden ∧
    fieldFloodFlag.get_indices_near 0 0 = .ok [(0, 1), (1, 0), (1, 1)] ∧
    flood_empty_tiles 8 fieldFloodFlag 0 0 =
      some ({ width := 2, height := 2, mines := 0, flags := 1
              tiles :=
                [ { state := TileState.Visible, has_mine := false }
                , { state := TileState.Flagged, has_mine := false }
                , { state := TileState.Visible, has_mine := false }
                , { state := TileState.Visible, has_mine := false } ] }, none) ∧
    ({ width := 2, height := 2, mines := 0, flags := 1
       tiles :=
         [ { state := TileState.Visible, has_mine := false }
         , { state := TileState.Flagged, has_mine := false }
         , { state := TileState.Visible, has_mine := false }
         , { state := TileState.Visible, has_mine := false } ] } :
      MineField).get_tile_state 0 1 = .ok TileState.Flagged :=
  ⟨rfl, rfl, rfl, rfl, rfl, rfl⟩

/-- C5 (amended): let P be a valid Hidden position with no mine and
zero adjacent mines, and suppose the flood from P terminates (returns
Ok).  Then (completeness) every tile reachable from P through chains
whose interior tiles are Hidden with zero adjacent mines - including
the border tiles such chains end at - is Visible afterwards unless it
was Flagged, in which case it is unchanged; (soundness) any tile whose
content changed lies in the closure of P under steps through
non-Visible zero-adjacent-mine tiles, so the flood never expands past a
tile with adjacent mines; and (frame) the flood only turns Hidden tiles
Visible, keeping every mine bit and every scalar component. -/
theorem C5_flood_spec (fuel : Nat) (f : MineField) (row column : Nat) (g : MineField)
    (_hmine : f.has_mine_at row column = .ok false)
    (_hzero : f.has_mines_near row column = .ok false)
    (hhid : f.get_tile_state row column = .ok TileState.Hidden)
    (hrun : flood_empty_tiles fuel f row column = some (g, none)) :
    (∀ X : Nat × Nat, ReachHid f (row, column) X →
      ∀ t : Tile, f.get_tile X.1 X.2 = .ok t →
        ∃ t', g.get_tile X.1 X.2 = .ok t' ∧ t'.has_mine = t.has_mine ∧
          t'.state = (if t.state = TileState.Flagged then TileState.Flagged
            else TileState.Visible)) ∧
    (∀ (x1 x2 : Nat) (t t' : Tile), f.get_tile x1 x2 = .ok t →
      g.get_tile x1 x2 = .ok t' → t' ≠ t → ReachVia f (row, column) (x1, x2)) ∧
    Evolve f g := by
  have hev : Evolve f g := flood_evolve fuel f row column g none hrun
  have hns : new_sat f g := flood_new_sat fuel f row column g hrun
  refine ⟨?_, fun x1 x2 t t' => flood_sound fuel f row column g none hrun x1 x2 t t', hev⟩
  intro X hreach
  induction hreach with
  | base =>
    intro t hget
    obtain ⟨t0, hget0, hts0⟩ := get_tile_state_ok_iff.mp hhid
    rw [hget0] at hget
    cases hget
    obtain ⟨t', hgt', hm, hstep⟩ := hev.get_tile_ok hget0
    have hres := flood_result_state hrun hhid
    rw [if_neg (by decide)] at hres
    obtain ⟨u, hgu, hus⟩ := get_tile_state_ok_iff.mp hres
    rw [hgt'] at hgu
    cases hgu
    refine ⟨t', hgt', hm, ?_⟩
    rw [hts0, if_neg (by decide)]
    exact hus
  | step p q hp hsP hzP l hl hq ih =>
    intro t hget
    obtain ⟨tp, hgetp, htsp⟩ := get_tile_state_ok_iff.mp hsP
    obtain ⟨tp', hgtp', hmp, hstp⟩ := ih tp hgetp
    rw [htsp, if_neg (by decide)] at hstp
    have hVp : g.get_tile_state p.1 p.2 = .ok TileState.Visible :=
      get_tile_state_ok_iff.mpr ⟨tp', hgtp', hstp⟩
    obtain ⟨tq', hgq', htq'⟩ := hns p.1 p.2 hsP hVp hzP l hl q hq
    obtain ⟨t'', hgt'', hstep''⟩ := hev.get_tile_ok hget
    rw [hgt''] at hgq'
    injection hgq' with hinj
    subst hinj
    refine ⟨t'', hgt'', hstep''.1, ?_⟩
    by_cases hflag : t.state = TileState.Flagged
    · rw [if_pos hflag]
      rcases hstep''.2 with hsame | ⟨hhid2, -⟩
      · rw [hsame, hflag]
      · rw [hflag] at hhid2
        cases hhid2
    · rw [if_neg hflag]
      rcases hstep''.2 with hsame | ⟨-, hvis⟩
      · by_cases hhid3 : t.state = TileState.Hidden
        · exact absurd (hsame.trans hhid3) htq'
        · have hvis3 : t.state = TileState.Visible := by
            cases htcase : t.state
            · exact absurd htcase hhid3
            · rfl
            · exact absurd htcase hflag
          exact hsame.trans hvis3
      · exact hvis

/-- C5 witness: on the 2x2 empty field, (1,1) is reachable from (0,0)
through Hidden zero-adjacent-mine tiles, and after the (terminating)
flood from (0,0) it is Visible. -/
theorem C5_flood_spec_witness :
    (MineField.empty 2 2).get_tile_state 1 1 = .ok TileState.Hidden ∧
    ({ width := 2, height := 2, mines := 0, flags := 0
       tiles :=
         [ { state := TileState.Visible, has_mine := false }
         , { state := TileState.Visible, has_mine := false }
         , { state := TileState.Visible, has_mine := false }
         , { state := TileState.Visible, has_mine := false } ] } :
      MineField).get_tile_state 1 1 = .ok TileState.Visible := by
  have h := C5_flood_spec 8 (MineField.empty 2 2) 0 0
    { width := 2, height := 2, mines := 0, flags := 0
      tiles :=
        [ { state := TileState.Visible, has_mine := false }
        , { state := TileState.Visible, has_mine := false }
        , { state := TileState.Visible, has_mine := false }
        , { state := TileState.Visible, has_mine := false } ] }
    rfl rfl rfl rfl
  have hreach : ReachHid (MineField.empty 2 2) (0, 0) (1, 1) :=
    ReachHid.step (0, 0) (1, 1) ReachHid.base rfl rfl
      [(0, 1), (1, 0), (1, 1)] rfl (by decide)
  obtain ⟨t', hok, -, hstate⟩ :=
    h.1 (1, 1) hreach { state := TileState.Hidden, has_mine := false } rfl
  exact ⟨rfl, get_tile_state_ok_iff.mpr ⟨t', hok, by simpa using hstate⟩⟩

end Minesweeper
